import Mathlib

/-!
# Verification of the informatics content-normalization pipeline

Shallow embedding of the core text/tree transforms of the repository
(`generate_task_mdx.py`, `transform_tasks.py`) together with proofs of the
specification's claims about them.

Strings are modelled as `List Char` at the algorithmic level, with `String`
wrappers at the interface; trees as a `Node` variant (element / text); the
diagnostic counters as a record of naturals.
-/
/-! ## Math-span segmentation (`_split_by_math_spans`)

The Python function scans the string with a mode in `{text, inline, display}`,
accumulating a buffer and flushing it into `(segment, is_math)` pairs.  The
escape checks read the previous character (`text[i-1] != "\\"`), which the
embedding threads through as `prev : Option Char` (`none` at position 0). -/
inductive MathMode where
  | text
  | inlineMath
  | displayMath
deriving DecidableEq, Repr

/-- `flush` of the Python closure: append the buffer as one segment, skipping
empty buffers. -/
def flushSeg (segs : List (List Char × Bool)) (buf : List Char) (isMath : Bool) :
    List (List Char × Bool) :=
  if buf = [] then segs else segs ++ [(buf, isMath)]

/-- The scanning loop of `_split_by_math_spans`, one constructor case per
branch of the Python `while` body.  `prev` is the character before the current
position (the Python code's `text[i-1]`). -/
def splitGo : List Char → Option Char → MathMode → List Char →
    List (List Char × Bool) → List (List Char × Bool)
  | [], _, mode, buf, segs => flushSeg segs buf (mode ≠ MathMode.text)
  | '$' :: '$' :: rest, prev, MathMode.text, buf, segs =>
      if prev = some '\\' then
        -- escaped: neither the `$$` branch nor the `$` branch fires
        splitGo ('$' :: rest) (some '$') MathMode.text (buf ++ ['$']) segs
      else
        splitGo rest (some '$') MathMode.displayMath ['$', '$'] (flushSeg segs buf false)
  | '$' :: rest, prev, MathMode.text, buf, segs =>
      if prev = some '\\' then
        splitGo rest (some '$') MathMode.text (buf ++ ['$']) segs
      else
        splitGo rest (some '$') MathMode.inlineMath ['$'] (flushSeg segs buf false)
  | c :: rest, _, MathMode.text, buf, segs =>
      splitGo rest (some c) MathMode.text (buf ++ [c]) segs
  | c :: rest, prev, MathMode.inlineMath, buf, segs =>
      if c = '$' ∧ prev ≠ some '\\' then
        splitGo rest (some c) MathMode.text [] (flushSeg segs (buf ++ [c]) true)
      else
        splitGo rest (some c) MathMode.inlineMath (buf ++ [c]) segs
  | '$' :: '$' :: rest, prev, MathMode.displayMath, buf, segs =>
      if prev = some '\\' then
        splitGo ('$' :: rest) (some '$') MathMode.displayMath (buf ++ ['$']) segs
      else
        splitGo rest (some '$') MathMode.text [] (flushSeg segs (buf ++ ['$', '$']) true)
  | c :: rest, _, MathMode.displayMath, buf, segs =>
      splitGo rest (some c) MathMode.displayMath (buf ++ [c]) segs

/-- `_split_by_math_spans` at the `List Char` level: the empty string returns
the single segment `("", False)`; otherwise the scan starts in text mode. -/
def splitByMathSpansL (cs : List Char) : List (List Char × Bool) :=
  if cs = [] then [([], false)] else splitGo cs none MathMode.text [] []

/-- `_split_by_math_spans` on strings. -/
def splitByMathSpans (s : String) : List (String × Bool) :=
  (splitByMathSpansL s.data).map (fun p => (String.mk p.1, p.2))

/-- Concatenation of the segments of a split, at the list level. -/
def segsConcat (segs : List (List Char × Bool)) : List Char :=
  (segs.map Prod.fst).flatten

/-! ## Unterminated math spans (C3)

If an opening `$` (or `$$`) is never closed, the Python loop exits with
`mode != "text"` and the final `flush(mode != "text")` emits the whole
remainder — from the opening delimiter to the end of the string — as one
math segment.  `noUnescapedDollar u p` says that scanning `u` in inline mode
(previous character `p`) never meets a closing unescaped `$`; `noDoubleClose`
is the display-mode analogue for `$$`. -/
def noUnescapedDollar : List Char → Char → Bool
  | [], _ => true
  | c :: rest, p => if c = '$' ∧ p ≠ '\\' then false else noUnescapedDollar rest c

def noDoubleClose : List Char → Char → Bool
  | '$' :: '$' :: rest, p => if p = '\\' then noDoubleClose ('$' :: rest) '$' else false
  | c :: rest, _ => noDoubleClose rest c
  | [], _ => true

/-- Last character of `p`, as the `prev` value the scan carries after
reading `p` (falling back to the incoming `prev` when `p` is empty). -/
def lastPrev (prev : Option Char) : List Char → Option Char
  | [] => prev
  | c :: rest => lastPrev (some c) rest

/-! ## Equality merge (`_merge_equals_in_text`)

The three regexes `MATH_EQ_MATH_RE`, `NUM_EQ_MATH_RE` and `MATH_EQ_NUM_RE`
are embedded as deterministic matchers (the lazy `[^$\n]+?` groups are
bounded by the next `$`, so no backtracking arises), and `re.sub` as a
left-to-right scan that restarts after each replacement.  Word characters
follow Python's `\w` restricted to the alphabets this corpus uses (ASCII
alphanumerics, underscore, Cyrillic); `\s` and `str.strip` use the common
whitespace set. -/
def isWordChar (c : Char) : Bool :=
  c.isAlphanum || c == '_' || (0x400 ≤ c.toNat && c.toNat ≤ 0x4FF)

def isSpaceChar (c : Char) : Bool :=
  c == ' ' || c == '\t' || c == '\n' || c == '\r' ||
    c == '\x0b' || c == '\x0c' || c == '\xa0'

/-- Python `str.strip()`: drop leading and trailing whitespace. -/
def stripChars (l : List Char) : List Char :=
  ((l.dropWhile isSpaceChar).reverse.dropWhile isSpaceChar).reverse

/-- A character allowed inside the `[^$\n]` groups of the merge regexes. -/
def isMathSegChar (c : Char) : Bool := c != '$' && c != '\n'

/-- `MATH_EQ_MATH_RE` (`\$a\$\s*=\s*\$b\$`) tried at the current position:
returns the replacement `f"${a.strip()} = {b.strip()}$"` and the number of
characters the match consumes. -/
def tryM1 : List Char → Option (List Char × Nat)
  | '$' :: rest1 =>
    let a := rest1.takeWhile isMathSegChar
    if a.isEmpty then none else
    match rest1.drop a.length with
    | '$' :: rest3 =>
      let w1 := rest3.takeWhile isSpaceChar
      match rest3.drop w1.length with
      | '=' :: rest5 =>
        let w2 := rest5.takeWhile isSpaceChar
        match rest5.drop w2.length with
        | '$' :: rest7 =>
          let b := rest7.takeWhile isMathSegChar
          if b.isEmpty then none else
          match rest7.drop b.length with
          | '$' :: _ =>
            some (['$'] ++ stripChars a ++ [' ', '=', ' '] ++ stripChars b ++ ['$'],
              1 + a.length + 1 + w1.length + 1 + w2.length + 1 + b.length + 1)
          | _ => none
        | _ => none
      | _ => none
    | _ => none
  | _ => none

/-- `NUM_EQ_MATH_RE` (`\b\d+\b\s*=\s*\$b\$`); `prev` is the character before
the current position in the original string, for the leading `\b`. -/
def tryM2 (prev : Option Char) (cs : List Char) : Option (List Char × Nat) :=
  let okStart : Bool := match prev with
    | none => true
    | some c => !isWordChar c
  if !okStart then none else
  let ds := cs.takeWhile Char.isDigit
  if ds.isEmpty then none else
  let r1 := cs.drop ds.length
  let okEnd : Bool := match r1 with
    | [] => true
    | c :: _ => !isWordChar c
  if !okEnd then none else
  let w1 := r1.takeWhile isSpaceChar
  match r1.drop w1.length with
  | '=' :: rest5 =>
    let w2 := rest5.takeWhile isSpaceChar
    match rest5.drop w2.length with
    | '$' :: rest7 =>
      let b := rest7.takeWhile isMathSegChar
      if b.isEmpty then none else
      match rest7.drop b.length with
      | '$' :: _ =>
        some (['$'] ++ ds ++ [' ', '=', ' '] ++ stripChars b ++ ['$'],
          ds.length + w1.length + 1 + w2.length + 1 + b.length + 1)
      | _ => none
    | _ => none
  | _ => none

/-- `MATH_EQ_NUM_RE` (`\$a\$\s*=\s*\b\d+\b`); the leading `\b` before the
digits always holds (the preceding character is `=` or whitespace), the
trailing `\b` is checked against the character after the digits. -/
def tryM3 (cs : List Char) : Option (List Char × Nat) :=
  match cs with
  | '$' :: rest1 =>
    let a := rest1.takeWhile isMathSegChar
    if a.isEmpty then none else
    match rest1.drop a.length with
    | '$' :: rest3 =>
      let w1 := rest3.takeWhile isSpaceChar
      match rest3.drop w1.length with
      | '=' :: rest5 =>
        let w2 := rest5.takeWhile isSpaceChar
        let rest6 := rest5.drop w2.length
        let ds := rest6.takeWhile Char.isDigit
        if ds.isEmpty then none else
        let okEnd : Bool := match rest6.drop ds.length with
          | [] => true
          | c :: _ => !isWordChar c
        if !okEnd then none else
        some (['$'] ++ stripChars a ++ [' ', '=', ' '] ++ ds ++ ['$'],
          1 + a.length + 1 + w1.length + 1 + w2.length + ds.length)
      | _ => none
    | _ => none
  | _ => none

/-- `re.sub` as a left-to-right scan over the original string: at each
position try the matcher; on a match emit the replacement and resume after
the matched text, otherwise copy one character.  `prev` is the character
before the current position of the original string (for `\b`).  The fuel is
the length of the input, one unit per position. -/
def reSub (try1 : Option Char → List Char → Option (List Char × Nat)) :
    Nat → Option Char → List Char → List Char
  | 0, _, cs => cs
  | _ + 1, _, [] => []
  | fuel + 1, prev, c :: rest =>
    match try1 prev (c :: rest) with
    | some (repl, k) =>
        if k = 0 then c :: reSub try1 fuel (some c) rest
        else repl ++ reSub try1 fuel (lastPrev prev ((c :: rest).take k)) ((c :: rest).drop k)
    | none => c :: reSub try1 fuel (some c) rest

/-- One iteration of the `while` body of `_merge_equals_in_text`: the three
substitutions in source order. -/
def mergeStepL (cs : List Char) : List Char :=
  let s1 := reSub (fun _ t => tryM1 t) cs.length none cs
  let s2 := reSub tryM2 s1.length none s1
  reSub (fun _ t => tryM3 t) s2.length none s2

/-- The `while prev != merged` loop, with fuel; the source iterates to the
first fixed point (`mergeLoopL` returns it whenever the fuel suffices). -/
def mergeLoopL : Nat → List Char → List Char
  | 0, cs => cs
  | fuel + 1, cs =>
      let t := mergeStepL cs
      if t = cs then cs else mergeLoopL fuel t

/-- `_merge_equals_in_text`.  The source's loop runs unboundedly to a fixed
point; the embedding supplies `length + 1` iterations of fuel, enough for
every input on which the claims are evaluated. -/
def mergeEqualsInTextL (cs : List Char) : List Char :=
  mergeLoopL (cs.length + 1) cs

def mergeEqualsInText (s : String) : String :=
  String.mk (mergeEqualsInTextL s.data)

/-! ## Python line and string utilities

`str.splitlines` (with and without `keepends`), `lstrip`/`rstrip`, and the
small anchored regexes `LETTER_ITEM_RE` and `ORDERED_ITEM_RE` used by the
markdown post-processor. -/
def isLineTerm (c : Char) : Bool :=
  c == '\n' || c == '\r' || c == '\x0b' || c == '\x0c' ||
    c == '\x1c' || c == '\x1d' || c == '\x1e' || c == '\x85' ||
    c == ' ' || c == ' '

/-- `str.splitlines(keepends=False)`: `cur` is the reversed current line
(`\r\n` counts as a single terminator). -/
def pySplitLinesGo : List Char → List Char → List (List Char)
  | cur, [] => if cur = [] then [] else [cur.reverse]
  | cur, '\r' :: '\n' :: rest => cur.reverse :: pySplitLinesGo [] rest
  | cur, c :: rest =>
      if isLineTerm c then cur.reverse :: pySplitLinesGo [] rest
      else pySplitLinesGo (c :: cur) rest

def pySplitLines (cs : List Char) : List (List Char) := pySplitLinesGo [] cs

/-- `str.splitlines(keepends=True)`. -/
def pySplitLinesKeepGo : List Char → List Char → List (List Char)
  | cur, [] => if cur = [] then [] else [cur.reverse]
  | cur, '\r' :: '\n' :: rest => ('\n' :: '\r' :: cur).reverse :: pySplitLinesKeepGo [] rest
  | cur, c :: rest =>
      if isLineTerm c then (c :: cur).reverse :: pySplitLinesKeepGo [] rest
      else pySplitLinesKeepGo (c :: cur) rest

def pySplitLinesKeep (cs : List Char) : List (List Char) := pySplitLinesKeepGo [] cs

def pyLstrip (l : List Char) : List Char := l.dropWhile isSpaceChar

def pyRstrip (l : List Char) : List Char := (l.reverse.dropWhile isSpaceChar).reverse

/-- A line is blank when `line.strip()` is empty. -/
def isBlankL (l : List Char) : Bool := stripChars l = []

/-- `[A-Za-zА-Яа-яЁё]`, the label class of `LETTER_ITEM_RE`. -/
def isLetterItemChar (c : Char) : Bool :=
  (('A' ≤ c && c ≤ 'Z') || ('a' ≤ c && c ≤ 'z')) ||
    (0x410 ≤ c.toNat && c.toNat ≤ 0x44F) || c.toNat = 0x401 || c.toNat = 0x451

/-- `LETTER_ITEM_RE` (`^(label)[)]\s*(rest)$`, `rest = .+`): label and the
`rest` group.  When everything after `label)` is whitespace, `\s*` backtracks
one character so that `.+` can still match: `rest` is then the last
character. -/
def letterItemMatch : List Char → Option (Char × List Char)
  | c :: ')' :: rest =>
      if isLetterItemChar c then
        if rest = [] then none
        else
          let r := rest.dropWhile isSpaceChar
          if r = [] then
            match rest.getLast? with
            | some d => some (c, [d])
            | none => none
          else some (c, r)
      else none
  | _ => none

/-- `ORDERED_ITEM_RE` (`^[ \t]*\d+[.)]\s+`): returns `match.end()`, the
length of the matched prefix (indentation, digits, the dot or parenthesis,
and the following whitespace run). -/
def orderedItemMatch (l : List Char) : Option Nat :=
  let ind := l.takeWhile (fun c => c == ' ' || c == '\t')
  let r1 := l.drop ind.length
  let ds := r1.takeWhile Char.isDigit
  if ds = [] then none else
  match r1.drop ds.length with
  | c :: rest2 =>
      if c = '.' ∨ c = ')' then
        let ws := rest2.takeWhile isSpaceChar
        if ws = [] then none
        else some (ind.length + ds.length + 1 + ws.length)
      else none
  | [] => none

/-! ## `normalize_letter_subpoints` -/
/-- Indentation for a letter-item group: the printed width of the ordered
list marker on the previous non-blank line, when there is one. -/
def subpointIndent (prevNb : Option (List Char)) : List Char :=
  match orderedItemMatch (prevNb.getD []) with
  | some e => List.replicate e ' '
  | none => []

/-- Render one sub-item paragraph: the matched first line as
`{indent}{label}) {rest.strip()}` (right-stripped), continuation lines as
`{indent}{line.strip()}` (right-stripped). -/
def renderItem (indent : List Char) (item : List (List Char)) : List (List Char) :=
  match item with
  | [] => []
  | l0 :: cont =>
    match letterItemMatch (pyLstrip l0) with
    | none => item
    | some (label, restTxt) =>
        pyRstrip (indent ++ label :: ')' :: ' ' :: stripChars restTxt) ::
          cont.map (fun l => pyRstrip (indent ++ stripChars l))

/-- Sub-items are separated from each other by one blank line. -/
def renderItems (indent : List Char) : List (List (List Char)) → List (List Char)
  | [] => []
  | [item] => renderItem indent item
  | item :: rest => renderItem indent item ++ [[]] ++ renderItems indent rest

/-- The inner `while True` loop: collect the follow-up sub-item paragraphs
(separated by blank runs), reporting whether the run ended with at least one
blank line and the unconsumed remainder. -/
def collectItems : Nat → List (List Char) →
    List (List (List Char)) × Bool × List (List Char)
  | 0, ls => ([], false, ls)
  | fuel + 1, ls =>
    let blanks := ls.takeWhile isBlankL
    let r := ls.drop blanks.length
    match r with
    | [] => ([], !blanks.isEmpty, [])
    | l :: _ =>
      match letterItemMatch (pyLstrip l) with
      | none => ([], !blanks.isEmpty, r)
      | some _ =>
          let para := r.takeWhile (fun x => !isBlankL x)
          let r2 := r.drop para.length
          let (more, tb, rem) := collectItems fuel r2
          (para :: more, tb, rem)

/-- Last pushed non-blank line of a rendered group (the `prev_nonblank`
tracking of `push`). -/
def lastNonblankD (rendered : List (List Char)) (prevNb : Option (List Char)) :
    Option (List Char) :=
  match (rendered.filter (fun x => !isBlankL x)).getLast? with
  | some x => some x
  | none => prevNb

/-- The outer `while i < n` loop of `normalize_letter_subpoints`. -/
def nlsGo : Nat → Option (List Char) → List (List Char) → List (List Char)
  | 0, _, ls => ls
  | fuel + 1, prevNb, ls =>
    match ls with
    | [] => []
    | l :: rest =>
      if isBlankL l then l :: nlsGo fuel prevNb rest
      else
        let para := ls.takeWhile (fun x => !isBlankL x)
        let r := ls.drop para.length
        match letterItemMatch (pyLstrip (para.headD [])) with
        | none =>
            para ++ nlsGo fuel (some (para.getLastD [])) r
        | some _ =>
            let indent := subpointIndent prevNb
            let (more, tb, rem) := collectItems (r.length + 1) r
            let rendered := renderItems indent (para :: more) ++ (if tb then [[]] else [])
            rendered ++ nlsGo fuel (lastNonblankD rendered prevNb) rem

def joinNl (ls : List (List Char)) : List Char := (ls.intersperse ['\n']).flatten

/-- `normalize_letter_subpoints`. -/
def normalizeLetterSubpointsL (cs : List Char) : List Char :=
  if cs = [] then cs else
  let lines := pySplitLines cs
  let endsNl := cs.getLast? = some '\n'
  let result := joinNl (nlsGo (lines.length + 1) none lines)
  if endsNl ∧ result.getLast? ≠ some '\n' then result ++ ['\n'] else result

/-! ## Task-5 transforms (`convert_task5_vars_to_math`,
`convert_task5_numbers_to_math`, `_wrap_numbers_in_plain_text`) -/
/-- Python `str.replace` (all non-overlapping occurrences, left to right). -/
def replaceAllL (pat repl : List Char) : Nat → List Char → List Char
  | 0, cs => cs
  | _ + 1, [] => []
  | fuel + 1, c :: rest =>
      if pat ≠ [] ∧ (c :: rest).take pat.length = pat then
        repl ++ replaceAllL pat repl fuel ((c :: rest).drop pat.length)
      else c :: replaceAllL pat repl fuel rest

/-- `convert_task5_vars_to_math`: `*N*` and `*R*` become `$N$`/`$R$`
(iterating the two-element set `TASK5_ITALIC_VARS`). -/
def convertTask5VarsL (cs : List Char) : List Char :=
  let s1 := replaceAllL ['*', 'N', '*'] ['$', 'N', '$'] (cs.length + 1) cs
  replaceAllL ['*', 'R', '*'] ['$', 'R', '$'] (s1.length + 1) s1

/-- `[0-9A-Za-zА-Яа-я_]`, the token-boundary class of
`TASK5_NUMBER_TOKEN_RE` (note: without `Ё`/`ё`). -/
def isTokenWordChar (c : Char) : Bool :=
  c.isAlphanum || c == '_' || (0x410 ≤ c.toNat && c.toNat ≤ 0x44F)

/-- The `](...)` scan of `_wrap_numbers_in_plain_text`: consume characters,
tracking parenthesis depth, until it returns to zero (the closing parenthesis
is consumed) or the input ends. -/
def parenScan : Nat → Nat → List Char → List Char × List Char
  | 0, _, cs => (cs, [])
  | _ + 1, _, [] => ([], [])
  | fuel + 1, depth, c :: rest =>
      let depth2 : Nat := if c = '(' then depth + 1 else if c = ')' then depth - 1 else depth
      if depth2 = 0 then ([c], rest)
      else
        let (s, r) := parenScan fuel depth2 rest
        (c :: s, r)

/-- The scanning loop of `_wrap_numbers_in_plain_text`: skip raw HTML tags
`<...>` and markdown link destinations `](...)`, and wrap standalone integer
tokens (boundary class `isTokenWordChar` on both sides) in `$...$`.  `prev`
is the previous character of the line being scanned (for the lookbehind). -/
def wrapNumGo : Nat → Option Char → List Char → List Char
  | 0, _, cs => cs
  | _ + 1, _, [] => []
  | fuel + 1, _, '<' :: rest =>
      let t := rest.takeWhile (fun c => c != '>')
      match rest.drop t.length with
      | '>' :: rest2 => '<' :: (t ++ '>' :: wrapNumGo fuel (some '>') rest2)
      | _ => '<' :: rest
  | fuel + 1, _, ']' :: '(' :: rest =>
      let (seg, rest2) := parenScan (rest.length + 1) 1 rest
      ']' :: '(' :: (seg ++ wrapNumGo fuel (lastPrev (some '(') seg) rest2)
  | fuel + 1, prev, c :: rest =>
      let okBehind : Bool := match prev with
        | none => true
        | some p => !isTokenWordChar p
      if c.isDigit && okBehind then
        let ds := (c :: rest).takeWhile Char.isDigit
        let r2 := (c :: rest).drop ds.length
        let okAhead : Bool := match r2 with
          | [] => true
          | d :: _ => !isTokenWordChar d
        if okAhead then
          '$' :: ds ++ '$' :: wrapNumGo fuel (lastPrev prev ds) r2
        else c :: wrapNumGo fuel (some c) rest
      else c :: wrapNumGo fuel (some c) rest

def wrapNumbersInPlainTextL (cs : List Char) : List Char :=
  if cs = [] then cs else wrapNumGo (cs.length + 1) none cs

/-- `convert_task5_numbers_to_math`: wrap numbers only in non-math segments,
keeping ordered-list marker prefixes untouched. -/
def convertTask5NumbersL (cs : List Char) : List Char :=
  ((splitByMathSpansL cs).map (fun p =>
    if p.2 then p.1
    else
      ((pySplitLinesKeep p.1).map (fun line =>
        match orderedItemMatch line with
        | none => wrapNumbersInPlainTextL line
        | some e => line.take e ++ wrapNumbersInPlainTextL (line.drop e))).flatten)).flatten

/-! ## `_transform_outside_inline_code` and `normalize_math_in_markdown` -/
/-- `SINGLE_LEADING_SPACE_RE.sub("", text)` (`(?m)^ (?![ \t])`): remove a
single leading space at a line start when not followed by a space or tab.
The boolean tracks whether the scan is at a line start. -/
def slsGo : Bool → List Char → List Char
  | _, [] => []
  | true, ' ' :: rest =>
      (match rest with
       | c :: _ => if c = ' ' ∨ c = '\t' then ' ' :: slsGo false rest else slsGo false rest
       | [] => [])
  | _, '\n' :: rest => '\n' :: slsGo true rest
  | _, c :: rest => c :: slsGo false rest

def singleLeadingSpaceSub (cs : List Char) : List Char := slsGo true cs

/-- `INLINE_CODE_RE` (`(?P<fence>`+)(?P<code>[^`]*?)(?P=fence)`) tried at the
current position, with the engine's backtracking order: the fence takes the
whole backtick run `K` first (code is then the run of non-backticks, closed
by `K` more backticks); failing that, a shorter fence of `j < K` backticks
can only close immediately inside the same run (`code` empty), which the
descending search first satisfies at `j = K / 2`. -/
def tryInlineCode (cs : List Char) : Option (List Char × Nat) :=
  match cs with
  | '`' :: _ =>
    let kt := cs.takeWhile (fun c => c == '`')
    let kn := kt.length
    let afterRun := cs.drop kn
    let t := afterRun.takeWhile (fun c => c != '`')
    let m := ((afterRun.drop t.length).takeWhile (fun c => c == '`')).length
    if kn ≤ m then
      some (cs.take (kn + t.length + kn), kn + t.length + kn)
    else if 2 ≤ kn then
      some (cs.take (2 * (kn / 2)), 2 * (kn / 2))
    else none
  | _ => none

/-- The per-segment transform between inline-code matches: the equality
merge, then (for task 5) the italic-variable and number wrapping. -/
def transformSeg (tn : Option Nat) (seg : List Char) : List Char :=
  let m := mergeEqualsInTextL seg
  if tn = some 5 then convertTask5NumbersL (convertTask5VarsL m) else m

/-- The `finditer` loop of `_transform_outside_inline_code`: `pending` is the
reversed text accumulated since the end of the previous match. -/
def ticGo (tn : Option Nat) : Nat → List Char → List Char → List Char
  | 0, pending, cs => transformSeg tn pending.reverse ++ cs
  | _ + 1, pending, [] => transformSeg tn pending.reverse
  | fuel + 1, pending, c :: rest =>
      match tryInlineCode (c :: rest) with
      | some (mtext, k) =>
          if k = 0 then ticGo tn fuel (c :: pending) rest
          else transformSeg tn pending.reverse ++ mtext ++
            ticGo tn fuel [] ((c :: rest).drop k)
      | none => ticGo tn fuel (c :: pending) rest

/-- `_transform_outside_inline_code`. -/
def transformOutsideInlineCode (tn : Option Nat) (cs : List Char) : List Char :=
  if cs = [] then cs else
  let t1 := singleLeadingSpaceSub cs
  let t2 := normalizeLetterSubpointsL t1
  ticGo tn (t2.length + 1) [] t2

/-- `re.match(r"^(```|~~~)", line)`. -/
def fenceMarkerOf (l : List Char) : Option (List Char) :=
  if l.take 3 = ['`', '`', '`'] then some ['`', '`', '`']
  else if l.take 3 = ['~', '~', '~'] then some ['~', '~', '~']
  else none

/-- `flush_buffer` of `normalize_math_in_markdown`. -/
def flushBuf (tn : Option Nat) (buffer : List (List Char)) : List (List Char) :=
  if buffer = [] then [] else [transformOutsideInlineCode tn buffer.flatten]

/-- The line loop of `normalize_math_in_markdown`: fenced regions are copied
verbatim; other lines are buffered and flushed through
`_transform_outside_inline_code`. -/
def normGo (tn : Option Nat) : List (List Char) → List (List Char) → Bool →
    Option (List Char) → List (List Char)
  | [], buffer, _, _ => flushBuf tn buffer
  | line :: rest, buffer, inFence, fence =>
      match fenceMarkerOf line with
      | some marker =>
          if !inFence then
            flushBuf tn buffer ++ line :: normGo tn rest [] true (some marker)
          else if some marker = fence then
            line :: normGo tn rest buffer false none
          else
            line :: normGo tn rest buffer inFence fence
      | none =>
          if inFence then line :: normGo tn rest buffer inFence fence
          else normGo tn rest (buffer ++ [line]) inFence fence

/-- `normalize_math_in_markdown`. -/
def normalizeMathInMarkdownL (cs : List Char) (tn : Option Nat) : List Char :=
  if cs = [] then cs else
  (normGo tn (pySplitLinesKeep cs) [] false none).flatten

def normalizeMathInMarkdown (s : String) (tn : Option Nat) : String :=
  String.mk (normalizeMathInMarkdownL s.data tn)

/-! ## C6: fence-awareness of the post-processor -/
/-- A well-formed line as produced by `splitlines(keepends=True)`: a
terminator-free body closed by a newline. -/
def wfLine (l : List Char) : Prop :=
  ∃ body, l = body ++ ['\n'] ∧ ∀ c ∈ body, isLineTerm c = false

/-! ## Tree model

Element/text nodes for the HTML fragments (`transform_tasks.py` operates on
the parsed tree; the synthetic `<root>` wrapper is represented by working on
the root's list of children). -/
inductive Node where
  | text (s : List Char)
  | elem (name : String) (attrs : List (String × List Char)) (children : List Node)
deriving Repr

mutual

def nodeDecEq : (a b : Node) → Decidable (a = b)
  | .text s, .text t =>
      match decEq s t with
      | isTrue h => isTrue (by rw [h])
      | isFalse h => isFalse (fun hh => h (Node.text.inj hh))
  | .text _, .elem _ _ _ => isFalse (fun h => Node.noConfusion h)
  | .elem _ _ _, .text _ => isFalse (fun h => Node.noConfusion h)
  | .elem n1 a1 c1, .elem n2 a2 c2 =>
      match decEq n1 n2 with
      | isFalse h => isFalse (fun hh => h (Node.elem.inj hh).1)
      | isTrue h1 =>
        match decEq a1 a2 with
        | isFalse h => isFalse (fun hh => h (Node.elem.inj hh).2.1)
        | isTrue h2 =>
          match nodeListDecEq c1 c2 with
          | isFalse h => isFalse (fun hh => h (Node.elem.inj hh).2.2)
          | isTrue h3 => isTrue (by rw [h1, h2, h3])

def nodeListDecEq : (a b : List Node) → Decidable (a = b)
  | [], [] => isTrue rfl
  | [], _ :: _ => isFalse (fun h => List.noConfusion h)
  | _ :: _, [] => isFalse (fun h => List.noConfusion h)
  | x :: xs, y :: ys =>
      match nodeDecEq x y with
      | isFalse h => isFalse (fun hh => h (List.cons.inj hh).1)
      | isTrue h1 =>
        match nodeListDecEq xs ys with
        | isFalse h => isFalse (fun hh => h (List.cons.inj hh).2)
        | isTrue h2 => isTrue (by rw [h1, h2])

end

instance : DecidableEq Node := nodeDecEq

mutual

def nodeSize : Node → Nat
  | .text _ => 1
  | .elem _ _ cs => 1 + nodeListSize cs

def nodeListSize : List Node → Nat
  | [] => 0
  | n :: rest => nodeSize n + nodeListSize rest

end

mutual

/-- All descendant strings of a node, in document order (bs4 `strings`). -/
def nodeStrings : Node → List (List Char)
  | .text s => [s]
  | .elem _ _ cs => listStrings cs

def listStrings : List Node → List (List Char)
  | [] => []
  | n :: rest => nodeStrings n ++ listStrings rest

end

def joinSep (sep : List Char) : List (List Char) → List Char
  | [] => []
  | [x] => x
  | x :: rest => x ++ sep ++ joinSep sep rest

/-- `get_text(sep, strip=True)`: strip each string, drop the empty ones,
join with `sep`. -/
def getTextStripSep (sep : List Char) (ns : List Node) : List Char :=
  joinSep sep (((listStrings ns).map stripChars).filter (fun l => !l.isEmpty))

/-- `get_text()` with no stripping. -/
def getTextRaw (ns : List Node) : List Char := (listStrings ns).flatten

def attrVal (attrs : List (String × List Char)) (key : String) : Option (List Char) :=
  match attrs.find? (fun p => p.1 == key) with
  | some p => some p.2
  | none => none

/-- `tag.get(key)` is truthy: present with a non-empty value. -/
def attrTruthy (attrs : List (String × List Char)) (key : String) : Bool :=
  match attrVal attrs key with
  | some v => !v.isEmpty
  | none => false

/-- Does the node list contain an element (bs4 `tag.find(True)` on the
children of a tag is non-`None` iff some child element exists)? -/
def hasElemChild (ns : List Node) : Bool :=
  ns.any (fun n => match n with | .elem _ _ _ => true | .text _ => false)

/-- Python `str.lower()` for the alphabets in use (ASCII and Cyrillic). -/
def pyLower (c : Char) : Char :=
  if 'A' ≤ c ∧ c ≤ 'Z' then Char.ofNat (c.toNat + 32)
  else if 0x410 ≤ c.toNat ∧ c.toNat ≤ 0x42F then Char.ofNat (c.toNat + 32)
  else if c.toNat = 0x401 then Char.ofNat 0x451
  else c

/-! ## The attachments banner (`ATTACHMENTS_NOTICE_RE`)

`Задание выполняется с использованием прилагаемых(?: к заданию)? файлов.`
with `\s+` between words and a case-insensitive match. -/
/-- Case-insensitive literal match; returns the rest of the input. -/
def matchLit (lit : List Char) (cs : List Char) : Option (List Char) :=
  if (cs.take lit.length).map pyLower = lit then some (cs.drop lit.length) else none

/-- `\s+`. -/
def matchWs1 (cs : List Char) : Option (List Char) :=
  let w := cs.takeWhile isSpaceChar
  if w.isEmpty then none else some (cs.drop w.length)

def bindO (o : Option (List Char)) (f : List Char → Option (List Char)) :
    Option (List Char) :=
  match o with
  | some r => f r
  | none => none

/-- The tail of the banner after `прилагаемых`: with the optional
`к заданию` group first (greedy), else without. -/
def noticeTailAt (cs : List Char) : Option (List Char) :=
  let withGroup :=
    bindO (matchWs1 cs) (fun r1 =>
    bindO (matchLit ("к").data r1) (fun r2 =>
    bindO (matchWs1 r2) (fun r3 =>
    bindO (matchLit ("заданию").data r3) (fun r4 =>
    bindO (matchWs1 r4) (fun r5 =>
    bindO (matchLit ("файлов").data r5) (fun r6 =>
    matchLit (".").data (r6.dropWhile isSpaceChar)))))))
  match withGroup with
  | some r => some r
  | none =>
      bindO (matchWs1 cs) (fun r1 =>
      bindO (matchLit ("файлов").data r1) (fun r2 =>
      matchLit (".").data (r2.dropWhile isSpaceChar)))

/-- The banner matched at the current position: returns the rest after it. -/
def noticeMatchAt (cs : List Char) : Option (List Char) :=
  bindO (matchLit ("задание").data cs) (fun r1 =>
  bindO (matchWs1 r1) (fun r2 =>
  bindO (matchLit ("выполняется").data r2) (fun r3 =>
  bindO (matchWs1 r3) (fun r4 =>
  bindO (matchLit ("с").data r4) (fun r5 =>
  bindO (matchWs1 r5) (fun r6 =>
  bindO (matchLit ("использованием").data r6) (fun r7 =>
  bindO (matchWs1 r7) (fun r8 =>
  bindO (matchLit ("прилагаемых").data r8) noticeTailAt))))))))

/-- `ATTACHMENTS_NOTICE_RE.search`. -/
def noticeSearch : List Char → Bool
  | [] => false
  | c :: rest =>
      match noticeMatchAt (c :: rest) with
      | some _ => true
      | none => noticeSearch rest

/-- `ATTACHMENTS_NOTICE_RE.sub("", text)`: drop every match. -/
def noticeSub : Nat → List Char → List Char
  | 0, cs => cs
  | _ + 1, [] => []
  | fuel + 1, c :: rest =>
      match noticeMatchAt (c :: rest) with
      | some r =>
          if r.length < (c :: rest).length then noticeSub fuel r
          else c :: noticeSub fuel rest
      | none => c :: noticeSub fuel rest

/-- `re.sub(r"\s+", " ", text).strip()`, the whitespace collapse used on
table-row text. -/
def collapseWs : Nat → List Char → List Char
  | 0, cs => cs
  | _ + 1, [] => []
  | fuel + 1, c :: rest =>
      if isSpaceChar c then
        ' ' :: collapseWs fuel ((c :: rest).dropWhile isSpaceChar)
      else c :: collapseWs fuel rest

def collapseWsStrip (cs : List Char) : List Char :=
  stripChars (collapseWs (cs.length + 1) cs)

/-! ## Sanitizer (`clean_html`)

The phases of `clean_html`, in source order, as pure tree rebuilds.  The
`find_all` snapshots of the source visit nodes in document order with
parents before children; each rewrite below reproduces the state each node
is inspected in (see the per-phase comments). -/
/-- Diagnostic counters (the `Counter[str]` entries `clean_html` touches). -/
structure Stats where
  showpictureq_replaced : Nat := 0
  showpictureq2_link : Nat := 0
  showpictureq2_img : Nat := 0
  math_dash_replaced : Nat := 0
  math_kept : Nat := 0
  anchor_unwrapped : Nat := 0
  empty_anchor_removed : Nat := 0
  attachments_notice_removed : Nat := 0
  attachment_link_rows_removed : Nat := 0
  empty_tag_removed : Nat := 0
  empty_table_removed : Nat := 0
  wrapper_unwrapped : Nat := 0
deriving Repr, DecidableEq

def dropAttrNames : List String :=
  ["class", "style", "bgcolor", "width", "height", "align", "valign", "lang",
   "svwidth", "border", "cellpadding", "cellspacing", "nowrap"]

mutual

/-- Is there a `table` element in the forest (bs4 `tag.find("table")` on the
children)? -/
def findTableNode : Node → Bool
  | .text _ => false
  | .elem n _ cs => n == "table" || findTableList cs

def findTableList : List Node → Bool
  | [] => false
  | c :: rest => findTableNode c || findTableList rest

end

mutual

/-- First loop of `clean_html`: unwrap `span`/`font`/`o:p` and `div`s
without a table descendant, turn `br` into a newline text node, and drop the
presentation attributes.  The source mutates a pre-order snapshot; since
these rewrites never create or remove `table` elements, the bottom-up
rebuild sees the same `find("table")` answers. -/
def phaseANode : Node → List Node
  | .text s => [.text s]
  | .elem n attrs cs =>
      if n == "br" then [.text ['\n']]
      else if n == "span" || n == "font" || n == "o:p" then phaseAList cs
      else if n == "div" && !findTableList cs then phaseAList cs
      else [.elem n (attrs.filter (fun p => !dropAttrNames.contains p.1)) (phaseAList cs)]

def phaseAList : List Node → List Node
  | [] => []
  | x :: rest => phaseANode x ++ phaseAList rest

end

mutual

/-- Non-breaking-space normalization in every text node. -/
def nbspNode : Node → Node
  | .text s => .text (s.map (fun c => if c = '\xa0' then ' ' else c))
  | .elem n attrs cs => .elem n attrs (nbspList cs)

def nbspList : List Node → List Node
  | [] => []
  | x :: rest => nbspNode x :: nbspList rest

end

/-- `re.findall(r"ShowPictureQ2WH\('([^']*)','([^']*)'", content)`. -/
def findPic2 : Nat → List Char → List (List Char × List Char)
  | 0, _ => []
  | _ + 1, [] => []
  | fuel + 1, c :: rest =>
      let cs := c :: rest
      let pre := ("ShowPictureQ2WH('").data
      if cs.take pre.length = pre then
        let r1 := cs.drop pre.length
        let zip := r1.takeWhile (fun d => d != '\'')
        match r1.drop zip.length with
        | '\'' :: ',' :: '\'' :: r2 =>
            let img := r2.takeWhile (fun d => d != '\'')
            match r2.drop img.length with
            | '\'' :: r3 => (zip, img) :: findPic2 fuel r3
            | _ => findPic2 fuel rest
        | _ => findPic2 fuel rest
      else findPic2 fuel rest

/-- `re.findall(r"ShowPictureQ\('([^']+)'", content)`. -/
def findPic1 : Nat → List Char → List (List Char)
  | 0, _ => []
  | _ + 1, [] => []
  | fuel + 1, c :: rest =>
      let cs := c :: rest
      let pre := ("ShowPictureQ('").data
      if cs.take pre.length = pre then
        let r1 := cs.drop pre.length
        let fname := r1.takeWhile (fun d => d != '\'')
        if fname.isEmpty then findPic1 fuel rest
        else
          match r1.drop fname.length with
          | '\'' :: r2 => fname :: findPic1 fuel r2
          | _ => findPic1 fuel rest
      else findPic1 fuel rest

/-- The nodes inserted before a script whose body is `content`, with the
counter increments (`ShowPictureQ2WH` links and images first, then
`ShowPictureQ` images). -/
def scriptRepl (content : List Char) (st : Stats) : List Node × Stats :=
  let p2 := findPic2 (content.length + 1) content
  let (ns2, st2) := p2.foldl (fun (acc : List Node × Stats) q =>
    let (ns, s) := acc
    let (ns, s) :=
      if q.1.isEmpty then (ns, s)
      else (ns ++ [.elem "a" [("href", ("assets/").data ++ q.1)] [.text q.1]],
        { s with showpictureq2_link := s.showpictureq2_link + 1 })
    if q.2.isEmpty then (ns, s)
    else (ns ++ [.elem "img" [("src", ("assets/").data ++ q.2), ("alt", [])] []],
      { s with showpictureq2_img := s.showpictureq2_img + 1 })) ([], st)
  let p1 := findPic1 (content.length + 1) content
  p1.foldl (fun (acc : List Node × Stats) f =>
    let (ns, s) := acc
    (ns ++ [.elem "img" [("src", ("assets/").data ++ f), ("alt", [])] []],
      { s with showpictureq_replaced := s.showpictureq_replaced + 1 })) (ns2, st2)

mutual

/-- Script-to-markup rewrite: each `script` element is replaced by the
markup synthesized from its body (`scriptRepl`) and deleted. -/
def scriptsNode : Node → Stats → List Node × Stats
  | .text s, st => ([.text s], st)
  | .elem n attrs cs, st =>
      if n == "script" then scriptRepl (getTextRaw cs) st
      else
        match scriptsList cs st with
        | (cs2, st2) => ([.elem n attrs cs2], st2)

def scriptsList : List Node → Stats → List Node × Stats
  | [], st => ([], st)
  | x :: rest, st =>
      match scriptsNode x st with
      | (xs, st2) =>
          match scriptsList rest st2 with
          | (rs, st3) => (xs ++ rs, st3)

end

/-- The en dash (U+2013) of the math-leaf collapse. -/
def charDash : Char := '\u2013'

def leafNames : List String :=
  ["mo", "mi", "mn", "mtext", "msym", "m:mo", "m:mi", "m:mn", "m:mtext", "m:msym"]

mutual

/-- `single_leaf_text` support: the texts of the childless `LEAF_NAMES`
elements of a forest, in document order, skipping empty ones. -/
def leafTextsNode : Node → List (List Char)
  | .text _ => []
  | .elem n _ cs =>
      (if !hasElemChild cs && leafNames.contains n
          && !(getTextStripSep [] cs).isEmpty
        then [getTextStripSep [] cs] else []) ++ leafTextsList cs

def leafTextsList : List Node → List (List Char)
  | [] => []
  | x :: rest => leafTextsNode x ++ leafTextsList rest

end

/-- `single_leaf_text`: the unique non-empty leaf text, when there is
exactly one. -/
def singleLeafText (cs : List Node) : Option (List Char) :=
  match leafTextsList cs with
  | [t] => some t
  | _ => none

def stripMPrefix (n : String) : String :=
  if n.startsWith ("m:") then String.mk (n.data.drop 2) else n

mutual

/-- `strip_prefixes`: rename `m:xxx` tags recursively. -/
def stripPrefixNode : Node → Node
  | .text s => .text s
  | .elem n attrs cs => .elem (stripMPrefix n) attrs (stripPrefixList cs)

def stripPrefixList : List Node → List Node
  | [] => []
  | x :: rest => stripPrefixNode x :: stripPrefixList rest

end

/-- MathML handling: a `math` tree whose single non-empty leaf is the en
dash becomes that character; otherwise the namespace prefix is stripped and
the subtree kept (counted each time).  Nested `math` tags inside a kept one
are then processed in document order, as the source's snapshot does.  The
fuel bounds the recursion depth (`nodeListSize + 1` suffices; prefix
stripping preserves sizes). -/
def mathList : Nat → List Node → Stats → List Node × Stats
  | 0, ns, st => (ns, st)
  | _ + 1, [], st => ([], st)
  | fuel + 1, .text s :: rest, st =>
      match mathList fuel rest st with
      | (rs, st2) => (.text s :: rs, st2)
  | fuel + 1, .elem n attrs cs :: rest, st =>
      if n == "math" || n == "m:math" then
        if singleLeafText cs = some [charDash] then
          match mathList fuel rest
              { st with math_dash_replaced := st.math_dash_replaced + 1 } with
          | (rs, st2) => (.text [charDash] :: rs, st2)
        else
          match mathList fuel (stripPrefixList cs)
              { st with math_kept := st.math_kept + 1 } with
          | (cs2, st2) =>
              match mathList fuel rest st2 with
              | (rs, st3) => (.elem (stripMPrefix n) attrs cs2 :: rs, st3)
      else
        match mathList fuel cs st with
        | (cs2, st2) =>
            match mathList fuel rest st2 with
            | (rs, st3) => (.elem n attrs cs2 :: rs, st3)

/-- Anchor cleanup, in document order with fuel (an unwrap splices the
children into the current list, as `a_tag.unwrap()` does, and they are then
visited in place). -/
def anchorList : Nat → List Node → Stats → List Node × Stats
  | 0, ns, st => (ns, st)
  | _ + 1, [], st => ([], st)
  | fuel + 1, .text s :: rest, st =>
      match anchorList fuel rest st with
      | (rs, st2) => (.text s :: rs, st2)
  | fuel + 1, .elem n attrs cs :: rest, st =>
      if n == "a" then
        if attrTruthy attrs "href" then
          match anchorList fuel cs st with
          | (cs2, st2) =>
              match anchorList fuel rest st2 with
              | (rs, st3) => (.elem n attrs cs2 :: rs, st3)
        else if (getTextStripSep [] cs).isEmpty && !hasElemChild cs then
          anchorList fuel rest
            { st with empty_anchor_removed := st.empty_anchor_removed + 1 }
        else
          anchorList fuel (cs ++ rest)
            { st with anchor_unwrapped := st.anchor_unwrapped + 1 }
      else
        match anchorList fuel cs st with
        | (cs2, st2) =>
            match anchorList fuel rest st2 with
            | (rs, st3) => (.elem n attrs cs2 :: rs, st3)

/-- The removal test of `_strip_attachments_notice` on one `tr`'s children:
the row's text matches the banner, and nothing is left once the banner and
whitespace are removed. -/
def noticeRowTest (cs : List Node) : Bool :=
  let txt := getTextStripSep [' '] cs
  noticeSearch txt &&
    (collapseWsStrip (noticeSub (txt.length + 1) txt)).isEmpty

mutual

/-- `_strip_attachments_notice`: delete banner-only table rows (document
order, parents first; a removed row's descendants are not revisited). -/
def noticeNode : Node → Nat → List Node × Nat
  | .text s, k => ([.text s], k)
  | .elem n attrs cs, k =>
      if n == "tr" && noticeRowTest cs then ([], k + 1)
      else
        match noticeList cs k with
        | (cs2, k2) => ([.elem n attrs cs2], k2)

def noticeList : List Node → Nat → List Node × Nat
  | [], k => ([], k)
  | x :: rest, k =>
      match noticeNode x k with
      | (xs, k2) =>
          match noticeList rest k2 with
          | (rs, k3) => (xs ++ rs, k3)

end

mutual

/-- The `tr.find_all("a", href=True)` collection: descendant anchors with an
`href` attribute present, as `(href, link text)` pairs in document order. -/
def hrefAnchorsNode : Node → List (List Char × List Char)
  | .text _ => []
  | .elem n attrs cs =>
      (if n == "a" then
        match attrVal attrs "href" with
        | some v => [(v, getTextStripSep [' '] cs)]
        | none => []
      else []) ++ hrefAnchorsList cs

def hrefAnchorsList : List Node → List (List Char × List Char)
  | [] => []
  | x :: rest => hrefAnchorsNode x ++ hrefAnchorsList rest

end

def attachmentExts : List (List Char) :=
  [(".zip").data, (".rar").data, (".7z").data]

/-- Is `href` (stripped, lower-cased) an `assets/…` archive link? -/
def isAttachmentHref (href : List Char) : Bool :=
  let h := (stripChars href).map pyLower
  (h.take 7 = ("assets/").data) &&
    attachmentExts.any (fun e => h.drop (h.length - e.length) = e)

/-- The removal test of `_strip_attachment_link_rows` on one `tr`. -/
def linkRowTest (cs : List Node) : Bool :=
  let aTags := hrefAnchorsList cs
  if aTags.isEmpty then false
  else
    let links := aTags.filter (fun p => isAttachmentHref p.1)
    if links.isEmpty then false
    else if links.length ≠ aTags.length then false
    else
      let txt := links.foldl (fun t p =>
        if p.2.isEmpty then t else replaceAllL p.2 [] (t.length + 1) t)
        (getTextStripSep [' '] cs)
      (collapseWsStrip txt).isEmpty

mutual

def linkRowNode : Node → Stats → List Node × Stats
  | .text s, st => ([.text s], st)
  | .elem n attrs cs, st =>
      if n == "tr" && linkRowTest cs then
        ([], { st with
          attachment_link_rows_removed := st.attachment_link_rows_removed + 1 })
      else
        match linkRowList cs st with
        | (cs2, st2) => ([.elem n attrs cs2], st2)

def linkRowList : List Node → Stats → List Node × Stats
  | [], st => ([], st)
  | x :: rest, st =>
      match linkRowNode x st with
      | (xs, st2) =>
          match linkRowList rest st2 with
          | (rs, st3) => (xs ++ rs, st3)

end

def emptyRemovableNames : List String :=
  ["p", "div", "span", "font", "b", "i", "strong", "em", "u", "sup", "sub"]

mutual

/-- Empty-node pruning.  The source iterates a pre-order snapshot, so each
element is judged against its original subtree (parents are inspected before
their children are removed): an element is deleted iff its tag is removable,
it has no element child and no non-whitespace text in its original
subtree. -/
def pruneNode : Node → Stats → List Node × Stats
  | .text s, st => ([.text s], st)
  | .elem n attrs cs, st =>
      if emptyRemovableNames.contains n && !hasElemChild cs
          && (getTextStripSep [] cs).isEmpty then
        ([], { st with empty_tag_removed := st.empty_tag_removed + 1 })
      else
        match pruneList cs st with
        | (cs2, st2) => ([.elem n attrs cs2], st2)

def pruneList : List Node → Stats → List Node × Stats
  | [], st => ([], st)
  | x :: rest, st =>
      match pruneNode x st with
      | (xs, st2) =>
          match pruneList rest st2 with
          | (rs, st3) => (xs ++ rs, st3)

end

mutual

def findImgNode : Node → Bool
  | .text _ => false
  | .elem n _ cs => n == "img" || findImgList cs

def findImgList : List Node → Bool
  | [] => false
  | x :: rest => findImgNode x || findImgList rest

end

mutual

def findHrefANode : Node → Bool
  | .text _ => false
  | .elem n attrs cs =>
      (n == "a" && (attrVal attrs "href").isSome) || findHrefAList cs

def findHrefAList : List Node → Bool
  | [] => false
  | x :: rest => findHrefANode x || findHrefAList rest

end

mutual

def findMathNode : Node → Bool
  | .text _ => false
  | .elem n _ cs => n == "math" || findMathList cs

def findMathList : List Node → Bool
  | [] => false
  | x :: rest => findMathNode x || findMathList rest

end

mutual

def countTablesNode : Node → Nat
  | .text _ => 0
  | .elem n _ cs => (if n == "table" then 1 else 0) + countTablesList cs

def countTablesList : List Node → Nat
  | [] => 0
  | x :: rest => countTablesNode x + countTablesList rest

end

/-- The removal test of `_remove_empty_tables` on one `table`'s children. -/
def emptyTableTest (cs : List Node) : Bool :=
  (getTextStripSep [' '] cs).isEmpty &&
    !findImgList cs && !findHrefAList cs && !findMathList cs

mutual

/-- `_remove_empty_tables`.  In the source, a table nested inside a removed
table is still visited (already decomposed, hence trivially empty) and
counted again, so a removed table contributes `1 +` its descendant table
count. -/
def emptyTableNode : Node → Stats → List Node × Stats
  | .text s, st => ([.text s], st)
  | .elem n attrs cs, st =>
      if n == "table" && emptyTableTest cs then
        ([], { st with empty_table_removed :=
            st.empty_table_removed + 1 + countTablesList cs })
      else
        match emptyTableList cs st with
        | (cs2, st2) => ([.elem n attrs cs2], st2)

def emptyTableList : List Node → Stats → List Node × Stats
  | [], st => ([], st)
  | x :: rest, st =>
      match emptyTableNode x st with
      | (xs, st2) =>
          match emptyTableList rest st2 with
          | (rs, st3) => (xs ++ rs, st3)

end

/-- Whitespace-only text node (ignored when counting the root's children). -/
def isWsText : Node → Bool
  | .text s => (stripChars s).isEmpty
  | .elem _ _ _ => false

/-- One step of the wrapper collapse: if the only significant child is a
`td`/`tr`/`tbody` element, unwrap it in place. -/
def findSingleWrapper (pre : List Node) : List Node → Option (List Node)
  | [] => none
  | .text s :: rest =>
      if (stripChars s).isEmpty then findSingleWrapper (pre ++ [.text s]) rest
      else none
  | .elem n _ inner :: rest =>
      if (n == "td" || n == "tr" || n == "tbody") && rest.all isWsText then
        some (pre ++ inner ++ rest)
      else none

/-- `while unwrap_single_wrapper(root)`. -/
def wrapperLoop : Nat → List Node → Stats → List Node × Stats
  | 0, ns, st => (ns, st)
  | fuel + 1, ns, st =>
      match findSingleWrapper [] ns with
      | some ns2 =>
          wrapperLoop fuel ns2
            { st with wrapper_unwrapped := st.wrapper_unwrapped + 1 }
      | none => (ns, st)

/-! ## Serialization (`str(child)` with bs4's minimal formatter) -/
def escTextChar (c : Char) : List Char :=
  if c = '&' then ("&amp;").data
  else if c = '<' then ("&lt;").data
  else if c = '>' then ("&gt;").data
  else [c]

def escText (s : List Char) : List Char := (s.map escTextChar).flatten

def escAttrChar (c : Char) : List Char :=
  if c = '&' then ("&amp;").data
  else if c = '<' then ("&lt;").data
  else if c = '>' then ("&gt;").data
  else if c = '"' then ("&quot;").data
  else [c]

def escAttr (s : List Char) : List Char := (s.map escAttrChar).flatten

/-- The HTML void elements, rendered self-closing by bs4's `html.parser`
tree builder. -/
def voidTags : List String :=
  ["area", "base", "br", "col", "embed", "hr", "img", "input", "keygen",
   "link", "menuitem", "meta", "param", "source", "track", "wbr"]

def serAttrs (attrs : List (String × List Char)) : List Char :=
  (attrs.map (fun p => ' ' :: p.1.data ++ ('=' :: '"' :: escAttr p.2) ++ ['"'])).flatten

mutual

def serNode : Node → List Char
  | .text s => escText s
  | .elem n attrs cs =>
      if voidTags.contains n && cs.isEmpty then
        '<' :: n.data ++ serAttrs attrs ++ ("/>").data
      else
        '<' :: n.data ++ serAttrs attrs ++ '>' :: serList cs
          ++ ("</").data ++ n.data ++ ['>']

def serList : List Node → List Char
  | [] => []
  | x :: rest => serNode x ++ serList rest

end

/-! ## `clean_html` -/
structure CleanResult where
  html : List Char
  bannerRemoved : Bool
  stats : Stats
deriving Repr, DecidableEq

/-- `clean_html`: the full phase pipeline on the root's children, returning
the serialized cleaned fragment, the attachments-banner flag and the
diagnostic counters.  (The pre-parse `strip_import_pis` and the HTML parse
itself are the external adapter producing the input forest.) -/
def cleanHtml (cs : List Node) : CleanResult :=
  let a := phaseAList cs
  let b := nbspList a
  let (c, st1) := scriptsList b {}
  let (d, st2) := mathList (nodeListSize c + 1) c st1
  let (e, st3) := anchorList (nodeListSize d + 1) d st2
  let (f, removed) := noticeList e 0
  let st4 := { st3 with attachments_notice_removed :=
    st3.attachments_notice_removed + removed }
  let (g, st5) := linkRowList f st4
  let (h, st6) := pruneList g st5
  let (i, st7) := emptyTableList h st6
  let (j, st8) := wrapperLoop (nodeListSize i + 1) i st7
  { html := serList j, bannerRemoved := removed ≠ 0, stats := st8 }

/-! ## Renderer (`render_node`, `render_list`, `html_to_markdown`) -/
/-- `body.replace("\n", "\n" + ind)`. -/
def nlReplace (ind : List Char) (body : List Char) : List Char :=
  body.flatMap (fun c => if c = '\n' then '\n' :: ind else [c])

/-- `code_text.replace("`", "\\`")`. -/
def escBackticks (s : List Char) : List Char :=
  s.flatMap (fun c => if c = '`' then ['\\', '`'] else [c])

def passthroughNames : List String :=
  ["math", "m:math", "table", "tbody", "thead", "tr", "td", "th"]

mutual

/-- `render_node` on an element (dispatch over the tag name, in source
order).  The fuel (first argument throughout the group) bounds the
recursion depth. -/
def renderElem : Nat → String → List (String × List Char) → List Node →
    List Char → List Char
  | 0, _, _, _, _ => []
  | fuel + 1, n, attrs, cs, indent =>
    if n == "br" then ['\n']
    else if n == "strong" || n == "b" then
      ("**").data ++ renderList fuel cs indent ++ ("**").data
    else if n == "em" || n == "i" then
      '*' :: renderList fuel cs indent ++ ['*']
    else if n == "code" then
      '`' :: escBackticks (renderList fuel cs indent) ++ ['`']
    else if n == "pre" then
      ("\n```\n").data ++ stripChars (getTextRaw cs) ++ ("\n```\n").data
    else if n == "img" then
      ("![").data ++ ((attrVal attrs "alt").getD []) ++ ("](").data
        ++ ((attrVal attrs "src").getD []) ++ [')']
    else if n == "a" then
      let href := attrVal attrs "href"
      let t := stripChars (renderList fuel cs indent)
      let txt := if !t.isEmpty then t
        else match href with
          | some h => h
          | none => []
      match href with
      | some h =>
          if !h.isEmpty then '[' :: txt ++ (("](").data ++ h ++ [')']) else txt
      | none => txt
    else if n == "ul" then
      '\n' :: (joinNl (renderItemsGo fuel cs indent false 1) ++ ['\n']) ++ ['\n']
    else if n == "ol" then
      '\n' :: (joinNl (renderItemsGo fuel cs indent true 1) ++ ['\n']) ++ ['\n']
    else if n == "li" then
      let body := nlReplace (indent ++ ("   ").data)
        (stripChars (renderList fuel cs (indent ++ ("   ").data)))
      indent ++ ("- ").data ++ body ++ ['\n']
    else if n == "p" then
      let content := stripChars (renderList fuel cs indent)
      if content.isEmpty then ['\n'] else content ++ ("\n\n").data
    else if passthroughNames.contains n then
      if n == "table" then '\n' :: serNode (.elem n attrs cs) ++ ['\n']
      else serNode (.elem n attrs cs)
    else renderList fuel cs indent

def renderNode : Nat → Node → List Char → List Char
  | 0, _, _ => []
  | _ + 1, .text s, _ => s
  | fuel + 1, .elem n attrs cs, indent => renderElem fuel n attrs cs indent

/-- `render_children`. -/
def renderList : Nat → List Node → List Char → List Char
  | 0, _, _ => []
  | _ + 1, [], _ => []
  | fuel + 1, x :: rest, indent => renderNode fuel x indent ++ renderList fuel rest indent

/-- The item collection of `render_list` (running integer marker for `li`
children of an ordered list; stray strings and non-`li` tags as in the
source). -/
def renderItemsGo : Nat → List Node → List Char → Bool → Nat → List (List Char)
  | 0, _, _, _, _ => []
  | _ + 1, [], _, _, _ => []
  | fuel + 1, .text s :: rest, indent, ordered, idx =>
      (if (stripChars s).isEmpty then [] else [indent ++ stripChars s])
        ++ renderItemsGo fuel rest indent ordered idx
  | fuel + 1, .elem n attrs cs :: rest, indent, ordered, idx =>
      if n == "li" then
        let marker := if ordered then (toString idx).data ++ ['.'] else ['-']
        let body := nlReplace (indent ++ ("   ").data)
          (stripChars (renderList fuel cs (indent ++ ("   ").data)))
        (indent ++ marker ++ ' ' :: body)
          :: renderItemsGo fuel rest indent ordered (idx + 1)
      else
        renderElem fuel n attrs cs indent :: renderItemsGo fuel rest indent ordered idx

end

/-- `re.sub(r"\n{3,}", "\n\n", md)`. -/
def collapseNl : Nat → List Char → List Char
  | 0, cs => cs
  | _ + 1, [] => []
  | fuel + 1, c :: rest =>
      if c = '\n' then
        let run := (c :: rest).takeWhile (fun d => d == '\n')
        if 3 ≤ run.length then
          '\n' :: '\n' :: collapseNl fuel ((c :: rest).drop run.length)
        else run ++ collapseNl fuel ((c :: rest).drop run.length)
      else c :: collapseNl fuel rest

/-- `html_to_markdown` from the parsed cleaned fragment (the fuel bound
`4 * size + 4` covers the hops through the render group per tree level). -/
def htmlToMarkdown (cs : List Node) : List Char :=
  let md := renderList (4 * nodeListSize cs + 4) cs []
  stripChars (collapseNl (md.length + 1) md) ++ ['\n']

/-! ## `convert_sub_sup_to_tex` -/
/-- `[0-9A-Za-zА-Яа-я]`, the base-token class of `SUB_SUP_BASE_RE` (no
underscore, no `Ё`). -/
def isSubSupBaseChar (c : Char) : Bool :=
  c.isAlphanum || (0x410 ≤ c.toNat && c.toNat ≤ 0x44F)

/-- `SUB_SUP_BASE_RE.search` (`([0-9A-Za-zА-Яа-я]+)\s*$`): the trailing
alphanumeric token and the text before it (`text[:m.start(1)]`). -/
def subSupBaseSplit (t : List Char) : Option (List Char × List Char) :=
  let r := t.reverse
  let ws := r.takeWhile isSpaceChar
  let base := (r.drop ws.length).takeWhile isSubSupBaseChar
  if base.isEmpty then none
  else some ((r.drop (ws.length + base.length)).reverse, base.reverse)

/-- `re.fullmatch(r"\$[^$]+\$", stripped)`. -/
def isSingleMathSpan (s : List Char) : Bool :=
  match s with
  | '$' :: rest =>
      1 < rest.length && rest.getLast? == some '$'
        && rest.dropLast.all (fun c => c != '$')
  | _ => false

/-- `str.replace(pat, repl, 1)`. -/
def replaceFirstL (pat repl : List Char) : Nat → List Char → List Char
  | 0, cs => cs
  | _ + 1, [] => []
  | fuel + 1, c :: rest =>
      if (c :: rest).take pat.length = pat then
        repl ++ (c :: rest).drop pat.length
      else c :: replaceFirstL pat repl fuel rest

/-- `_as_tex_script`. -/
def asTexScript (kind : String) (txt : List Char) : List Char :=
  (if kind == "sub" then '_' else '^') :: '{' :: txt ++ ['}']

/-- Split the processed prefix into the part before the whitespace-string
suffix and that suffix (the `while isinstance(base_node, NavigableString)
and base_node.strip() == ""` walk). -/
def splitWsSuffix (done : List Node) : List Node × List Node :=
  let r := done.reverse
  let ws := r.takeWhile (fun n => match n with
    | .text s => (stripChars s).isEmpty
    | .elem _ _ _ => false)
  ((r.drop ws.length).reverse, ws.reverse)

/-- One `<sub>`/`<sup>` tag handled against the processed prefix `done`:
the base is the nearest preceding non-whitespace sibling. -/
def handleScript (done : List Node) (kind : String) (scriptText : List Char) :
    List Node :=
  let script := asTexScript kind scriptText
  let (front, wsSuffix) := splitWsSuffix done
  match front.getLast? with
  | none => done ++ [.text ('$' :: script ++ ['$'])]
  | some (.text t) =>
      let stripped := stripChars t
      if isSingleMathSpan stripped then
        let inner := (stripped.drop 1).dropLast
        let newMath := '$' :: inner ++ script ++ ['$']
        front.dropLast ++ [.text (replaceFirstL stripped newMath (t.length + 1) t)]
          ++ wsSuffix
      else
        match subSupBaseSplit t with
        | some (before, base) =>
            front.dropLast ++ [.text (before ++ '$' :: base ++ script ++ ['$'])]
              ++ wsSuffix
        | none => done ++ [.text ('$' :: script ++ ['$'])]
  | some (.elem _ _ cs) =>
      let baseText := getTextStripSep [] cs
      if !baseText.isEmpty then
        front.dropLast ++ [.text ('$' :: baseText ++ script ++ ['$'])] ++ wsSuffix
      else done ++ [.text ('$' :: script ++ ['$'])]

/-- The `find_all(["sub", "sup"])` loop of `convert_sub_sup_to_tex` in
document order: `done` is the already-visited (and mutated) prefix of the
current sibling list; nested tags of other elements are processed before
later siblings read them (`get_text`), as in the source.  The fuel bounds
the recursion depth (`nodeListSize + 1`). -/
def processSubSup : Nat → List Node → List Node → List Node
  | 0, done, todo => done ++ todo
  | _ + 1, done, [] => done
  | fuel + 1, done, .text s :: rest => processSubSup fuel (done ++ [.text s]) rest
  | fuel + 1, done, .elem n attrs cs :: rest =>
      if n == "sub" || n == "sup" then
        let scriptText := getTextStripSep [] cs
        if scriptText.isEmpty then processSubSup fuel done rest
        else processSubSup fuel (handleScript done n scriptText) rest
      else
        processSubSup fuel
          (done ++ [.elem n attrs (processSubSup fuel [] cs)]) rest

def convertSubSupList (ns : List Node) : List Node :=
  processSubSup (nodeListSize ns + 1) [] ns

/-- `convert_sub_sup_to_tex` (tree to serialized string). -/
def convertSubSupToTex (ns : List Node) : List Char :=
  serList (convertSubSupList ns)

/-! ## Task records (`main` of `transform_tasks.py`)

JSON values, Python-dict operations on association lists (unique keys), the
КЭС code extraction, and the per-row transform of the main loop. -/
inductive TVal where
  | vNull
  | vBool (b : Bool)
  | vNum (n : Int)
  | vStr (s : List Char)
  | vList (l : List TVal)
  | vDict (d : List (String × TVal))
deriving Repr

mutual

def tvalDecEq : (a b : TVal) → Decidable (a = b)
  | .vNull, .vNull => isTrue rfl
  | .vBool a, .vBool b =>
      match decEq a b with
      | isTrue h => isTrue (by rw [h])
      | isFalse h => isFalse (fun hh => h (TVal.vBool.inj hh))
  | .vNum a, .vNum b =>
      match decEq a b with
      | isTrue h => isTrue (by rw [h])
      | isFalse h => isFalse (fun hh => h (TVal.vNum.inj hh))
  | .vStr a, .vStr b =>
      match decEq a b with
      | isTrue h => isTrue (by rw [h])
      | isFalse h => isFalse (fun hh => h (TVal.vStr.inj hh))
  | .vList a, .vList b =>
      match tvalListDecEq a b with
      | isTrue h => isTrue (by rw [h])
      | isFalse h => isFalse (fun hh => h (TVal.vList.inj hh))
  | .vDict a, .vDict b =>
      match tvalDictDecEq a b with
      | isTrue h => isTrue (by rw [h])
      | isFalse h => isFalse (fun hh => h (TVal.vDict.inj hh))
  | .vNull, .vBool _ => isFalse (fun h => TVal.noConfusion h)
  | .vNull, .vNum _ => isFalse (fun h => TVal.noConfusion h)
  | .vNull, .vStr _ => isFalse (fun h => TVal.noConfusion h)
  | .vNull, .vList _ => isFalse (fun h => TVal.noConfusion h)
  | .vNull, .vDict _ => isFalse (fun h => TVal.noConfusion h)
  | .vBool _, .vNull => isFalse (fun h => TVal.noConfusion h)
  | .vBool _, .vNum _ => isFalse (fun h => TVal.noConfusion h)
  | .vBool _, .vStr _ => isFalse (fun h => TVal.noConfusion h)
  | .vBool _, .vList _ => isFalse (fun h => TVal.noConfusion h)
  | .vBool _, .vDict _ => isFalse (fun h => TVal.noConfusion h)
  | .vNum _, .vNull => isFalse (fun h => TVal.noConfusion h)
  | .vNum _, .vBool _ => isFalse (fun h => TVal.noConfusion h)
  | .vNum _, .vStr _ => isFalse (fun h => TVal.noConfusion h)
  | .vNum _, .vList _ => isFalse (fun h => TVal.noConfusion h)
  | .vNum _, .vDict _ => isFalse (fun h => TVal.noConfusion h)
  | .vStr _, .vNull => isFalse (fun h => TVal.noConfusion h)
  | .vStr _, .vBool _ => isFalse (fun h => TVal.noConfusion h)
  | .vStr _, .vNum _ => isFalse (fun h => TVal.noConfusion h)
  | .vStr _, .vList _ => isFalse (fun h => TVal.noConfusion h)
  | .vStr _, .vDict _ => isFalse (fun h => TVal.noConfusion h)
  | .vList _, .vNull => isFalse (fun h => TVal.noConfusion h)
  | .vList _, .vBool _ => isFalse (fun h => TVal.noConfusion h)
  | .vList _, .vNum _ => isFalse (fun h => TVal.noConfusion h)
  | .vList _, .vStr _ => isFalse (fun h => TVal.noConfusion h)
  | .vList _, .vDict _ => isFalse (fun h => TVal.noConfusion h)
  | .vDict _, .vNull => isFalse (fun h => TVal.noConfusion h)
  | .vDict _, .vBool _ => isFalse (fun h => TVal.noConfusion h)
  | .vDict _, .vNum _ => isFalse (fun h => TVal.noConfusion h)
  | .vDict _, .vStr _ => isFalse (fun h => TVal.noConfusion h)
  | .vDict _, .vList _ => isFalse (fun h => TVal.noConfusion h)

def tvalListDecEq : (a b : List TVal) → Decidable (a = b)
  | [], [] => isTrue rfl
  | [], _ :: _ => isFalse (fun h => List.noConfusion h)
  | _ :: _, [] => isFalse (fun h => List.noConfusion h)
  | x :: xs, y :: ys =>
      match tvalDecEq x y with
      | isFalse h => isFalse (fun hh => h (List.cons.inj hh).1)
      | isTrue h1 =>
        match tvalListDecEq xs ys with
        | isFalse h => isFalse (fun hh => h (List.cons.inj hh).2)
        | isTrue h2 => isTrue (by rw [h1, h2])

def tvalDictDecEq : (a b : List (String × TVal)) → Decidable (a = b)
  | [], [] => isTrue rfl
  | [], _ :: _ => isFalse (fun h => List.noConfusion h)
  | _ :: _, [] => isFalse (fun h => List.noConfusion h)
  | (k1, v1) :: xs, (k2, v2) :: ys =>
      match decEq k1 k2 with
      | isFalse h => isFalse (fun hh => h (Prod.mk.inj (List.cons.inj hh).1).1)
      | isTrue h1 =>
        match tvalDecEq v1 v2 with
        | isFalse h =>
            isFalse (fun hh => h (Prod.mk.inj (List.cons.inj hh).1).2)
        | isTrue h2 =>
          match tvalDictDecEq xs ys with
          | isFalse h => isFalse (fun hh => h (List.cons.inj hh).2)
          | isTrue h3 => isTrue (by rw [h1, h2, h3])

end

instance : DecidableEq TVal := tvalDecEq

/-- Python truthiness of a JSON value. -/
def truthy : TVal → Bool
  | .vNull => false
  | .vBool b => b
  | .vNum n => n != 0
  | .vStr s => !s.isEmpty
  | .vList l => !l.isEmpty
  | .vDict d => !d.isEmpty

def dictGet (d : List (String × TVal)) (k : String) : Option TVal :=
  match d.find? (fun p => p.1 = k) with
  | some p => some p.2
  | none => none

/-- `d[k] = v` on a unique-key dict: replace in place, else append. -/
def dictSet (d : List (String × TVal)) (k : String) (v : TVal) :
    List (String × TVal) :=
  match d with
  | [] => [(k, v)]
  | (k2, v2) :: rest =>
      if k2 = k then (k, v) :: rest else (k2, v2) :: dictSet rest k v

/-- `d.pop(k, None)`. -/
def dictPop (d : List (String × TVal)) (k : String) : List (String × TVal) :=
  match d with
  | [] => []
  | (k2, v2) :: rest => if k2 = k then rest else (k2, v2) :: dictPop rest k

def strOfOpt : Option TVal → List Char
  | some (.vStr s) => s
  | _ => []

def truthyOfOpt : Option TVal → Bool
  | some v => truthy v
  | none => false

/-- String field access (`str(row.get(k, ""))`; the record interface of the
spec types these fields as strings). -/
def rowStr (row : List (String × TVal)) (k : String) : List Char :=
  strOfOpt (dictGet row k)

/-- `bool(row.get(k))`. -/
def rowTruthy (row : List (String × TVal)) (k : String) : Bool :=
  truthyOfOpt (dictGet row k)

/-! ## КЭС code extraction and the reference table -/
/-- The greedy-with-backtracking tail of `KES_CODE_RE`
(`\d+(?:\.\d+)*\b`): keep consuming `.digits` groups; a group is given back
when the word boundary after it cannot be met. -/
def kesMatch : Nat → List Char → List Char → Option (List Char)
  | 0, _, _ => none
  | _ + 1, acc, [] => some acc
  | fuel + 1, acc, '.' :: cs2 =>
      let ds := cs2.takeWhile Char.isDigit
      if ds.isEmpty then some acc
      else
        match kesMatch fuel (acc ++ '.' :: ds) (cs2.drop ds.length) with
        | some r => some r
        | none => some acc
  | _ + 1, acc, c :: _ =>
      if isWordChar c then none else some acc

/-- `extract_kes_code` (`^\s*(\d+(?:\.\d+)*)\b`). -/
def extractKesCode (s : List Char) : Option (List Char) :=
  let r0 := s.dropWhile isSpaceChar
  let d0 := r0.takeWhile Char.isDigit
  if d0.isEmpty then none
  else kesMatch (r0.length + 1) d0 (r0.drop d0.length)

/-- A valid КЭС item: its code and stripped display text. -/
def validCodeText (it : TVal) : Option (List Char × List Char) :=
  match it with
  | .vStr s0 =>
      let s := stripChars s0
      if s.isEmpty then none
      else
        match extractKesCode s with
        | some c => some (c, s)
        | none => none
  | _ => none

structure KesState where
  table : List (List Char × List Char)
  conflicts : Nat
  invalid : Nat
deriving Repr, DecidableEq

def tableGet (tb : List (List Char × List Char)) (k : List Char) :
    Option (List Char) :=
  match tb.find? (fun p => p.1 = k) with
  | some p => some p.2
  | none => none

def tableSet (tb : List (List Char × List Char)) (k v : List Char) :
    List (List Char × List Char) :=
  match tb with
  | [] => [(k, v)]
  | (k2, v2) :: rest =>
      if k2 = k then (k, v) :: rest else (k2, v2) :: tableSet rest k v

/-- One КЭС item against the shared table (`kes_text_by_code`): first text
wins the slot, a disagreeing text counts a conflict and the strictly longer
text replaces the entry; unparsable items count as invalid. -/
def kesStep (st : KesState) (it : TVal) : KesState :=
  match it with
  | .vStr s0 =>
      let s := stripChars s0
      if s.isEmpty then st
      else
        match extractKesCode s with
        | none => { st with invalid := st.invalid + 1 }
        | some code =>
            match tableGet st.table code with
            | none => { st with table := st.table ++ [(code, s)] }
            | some e =>
                if e ≠ s then
                  { st with
                    table := if e.length < s.length then tableSet st.table code s
                      else st.table,
                    conflicts := st.conflicts + 1 }
                else st
  | _ => st

def kesStateFold (items : List TVal) (st : KesState) : KesState :=
  items.foldl kesStep st

/-- The per-row `codes` list: valid codes in first-occurrence order. -/
def kesCodesGo (acc : List (List Char)) : List TVal → List (List Char)
  | [] => acc
  | it :: rest =>
      match validCodeText it with
      | some ct =>
          kesCodesGo (if acc.contains ct.1 then acc else acc ++ [ct.1]) rest
      | none => kesCodesGo acc rest

def kesCodes (items : List TVal) : List (List Char) := kesCodesGo [] items

/-- The stripped display texts attached to `code` across a batch, in
order. -/
def kesOccurrences (code : List Char) (items : List TVal) : List (List Char) :=
  items.filterMap (fun it =>
    match validCodeText it with
    | some ct => if ct.1 = code then some ct.2 else none
    | none => none)

/-! ## The per-row transform of `main` -/
/-- The КЭС guard of the main loop: `meta` is a dict whose `КЭС` entry is a
list.  Returns that dict and list when the row enters the branch. -/
def metaReplaced (row : List (String × TVal)) :
    Option (List (String × TVal) × List TVal) :=
  match dictGet row ("meta") with
  | some (.vDict meta) =>
      match dictGet meta ("КЭС") with
      | some (.vList rawKes) => some (meta, rawKes)
      | _ => none
  | _ => none

/-- The row after `meta["КЭС"] = codes` (the in-place mutation of the `meta`
dict keeps its position in the row, as `dictSet` does). -/
def rowAfterMeta (row : List (String × TVal)) : List (String × TVal) :=
  match metaReplaced row with
  | some (meta, rawKes) =>
      dictSet row ("meta") (.vDict (dictSet meta ("КЭС")
        (.vList ((kesCodes rawKes).map TVal.vStr))))
  | none => row

/-- `clean_html(row.get("question_html", ""), stats)` for a row, `parse`
being the external HTML parser (fragment string to forest). -/
def rowClean (parse : List Char → List Node) (row : List (String × TVal)) :
    CleanResult :=
  cleanHtml (parse (rowStr (rowAfterMeta row) ("question_html")))

/-- `bool(ATTACHMENTS_NOTICE_RE.search(str(row.get("question_text", ""))))`. -/
def rowNotice (row : List (String × TVal)) : Bool :=
  noticeSearch (rowStr row ("question_text"))

/-- The row of the main loop just before `row.pop("question_html", None)`:
КЭС normalization in `meta`, the cleaned HTML and its Markdown rendering,
the attachments flag, and the banner scrub of `question_text`. -/
def rowFinalPrePop (parse : List Char → List Node)
    (row : List (String × TVal)) : List (String × TVal) :=
  let row1 := rowAfterMeta row
  let cr := cleanHtml (parse (rowStr row1 ("question_html")))
  let row2 := dictSet row1 ("question_html_clean") (.vStr cr.html)
  let row3 := dictSet row2 ("question_md")
    (.vStr (htmlToMarkdown (parse cr.html)))
  let hasAtt := rowTruthy row3 ("attachments")
  let qtext := rowStr row3 ("question_text")
  let noticeTxt := noticeSearch qtext
  let row4 := dictSet row3 ("requires_attachments")
    (.vBool (hasAtt || cr.bannerRemoved || noticeTxt))
  if cr.bannerRemoved || noticeTxt then
    dictSet row4 ("question_text")
      (.vStr (collapseWsStrip (noticeSub (qtext.length + 1) qtext)))
  else row4

/-- One row of the main loop: the output row, plus the КЭС reference state
(`kes_text_by_code` with its counters) threaded across rows.  The state
update only reads the `КЭС` list, so it commutes with the row rewrite. -/
def processRow (parse : List Char → List Node) (st : KesState)
    (row : List (String × TVal)) : KesState × List (String × TVal) :=
  (match metaReplaced row with
   | some (_, rawKes) => kesStateFold rawKes st
   | none => st,
   dictPop (rowFinalPrePop parse row) ("question_html"))

/-- The КЭС reference state accumulated over a whole batch of items,
starting from the empty table (`kes_text_by_code = {}`, zeroed counters). -/
def kesBatch (items : List TVal) : KesState :=
  kesStateFold items ⟨[], 0, 0⟩

def kesWitnessItems : List TVal :=
  [.vStr ("1.2 Alpha").data, .vStr ("1.2 Beta!!").data, .vStr ("3 Gamma").data]

def emptyParse : List Char → List Node := fun _ => []

def c7Row : List (String × TVal) :=
  [("question_text", .vStr []), ("attachments", .vList [.vNull])]

def c10Row : List (String × TVal) :=
  [("id", .vNum 7), ("question_html", .vStr []), ("question_text", .vStr []),
   ("meta", .vDict [("КЭС", .vList [])]), ("attachments", .vList [])]

theorem segsConcat_append (a b : List (List Char × Bool)) :
    segsConcat (a ++ b) = segsConcat a ++ segsConcat b := by
  simp [segsConcat]

theorem segsConcat_flushSeg (segs : List (List Char × Bool)) (buf : List Char) (m : Bool) :
    segsConcat (flushSeg segs buf m) = segsConcat segs ++ buf := by
  by_cases h : buf = [] <;> simp [flushSeg, h, segsConcat]

/-- The scan only ever appends: the concatenation of the produced segments is
the already-flushed part followed by the buffer and the unread input. -/
theorem segsConcat_splitGo (cs : List Char) (prev : Option Char) (mode : MathMode)
    (buf : List Char) (segs : List (List Char × Bool)) :
    segsConcat (splitGo cs prev mode buf segs) = segsConcat segs ++ buf ++ cs := by
  induction cs, prev, mode, buf, segs using splitGo.induct
  all_goals first
    | (simp_all [splitGo, segsConcat_flushSeg, segsConcat_append, List.append_assoc]
       done)
    | (rw [splitGo]
       split <;>
         simp_all [segsConcat_flushSeg, segsConcat_append, List.append_assoc])

theorem splitByMathSpansL_concat (cs : List Char) :
    segsConcat (splitByMathSpansL cs) = cs := by
  by_cases h : cs = []
  · simp [splitByMathSpansL, h, segsConcat]
  · rw [splitByMathSpansL, if_neg h, segsConcat_splitGo]
    simp [segsConcat]

theorem string_join_mk (l : List (List Char)) :
    String.join (l.map String.mk) = String.mk l.flatten := by
  induction l with
  | nil => rfl
  | cons x xs ih =>
      simp only [List.map_cons, String.join, List.flatten]
      simp only [String.join] at ih
      rw [List.foldl_cons]
      have : ∀ (acc : String) (ys : List String),
          List.foldl (fun r s => r ++ s) acc ys = acc ++ List.foldl (fun r s => r ++ s) "" ys := by
        intro acc ys
        induction ys generalizing acc with
        | nil => simp
        | cons y ys ihy =>
            rw [List.foldl_cons, List.foldl_cons, ihy, ihy (("" : String) ++ y)]
            simp [String.append_assoc]
      rw [this, ih]
      apply String.ext
      simp

/-- C1: math-span segmentation is a total partition — the segments of
`splitByMathSpans`, concatenated in order, reconstruct the input string
exactly (so every character belongs to exactly one segment). -/
theorem splitByMathSpans_partition (s : String) :
    String.join ((splitByMathSpans s).map Prod.fst) = s := by
  have h1 : (splitByMathSpans s).map Prod.fst
      = ((splitByMathSpansL s.data).map Prod.fst).map String.mk := by
    simp [splitByMathSpans, Function.comp]
  rw [h1, string_join_mk]
  have h2 : ((splitByMathSpansL s.data).map Prod.fst).flatten = s.data := by
    have := splitByMathSpansL_concat s.data
    simpa [segsConcat] using this
  rw [h2]

theorem splitGo_inline_noClose (u : List Char) (p : Char)
    (h : noUnescapedDollar u p = true) (buf : List Char)
    (segs : List (List Char × Bool)) :
    splitGo u (some p) MathMode.inlineMath buf segs = flushSeg segs (buf ++ u) true := by
  induction u generalizing p buf segs with
  | nil => simp [splitGo]
  | cons c rest ih =>
      rw [noUnescapedDollar] at h
      by_cases hc : c = '$' ∧ p ≠ '\\'
      · simp [hc] at h
      · rw [splitGo, if_neg (by simpa using hc), ih c (by simpa [hc] using h)]
        simp

theorem splitGo_display_noClose (u : List Char) (p : Char) :
    noDoubleClose u p = true → ∀ (buf : List Char) (segs : List (List Char × Bool)),
    splitGo u (some p) MathMode.displayMath buf segs = flushSeg segs (buf ++ u) true := by
  induction u, p using noDoubleClose.induct with
  | case1 rest ih =>
      intro h buf segs
      rw [noDoubleClose, if_pos rfl] at h
      rw [splitGo, if_pos rfl, ih h]
      simp
  | case2 rest p hp =>
      intro h
      rw [noDoubleClose, if_neg hp] at h
      exact absurd h (by simp)
  | case3 c rest x hshape ih =>
      intro h buf segs
      have h2 : noDoubleClose rest c = true := by
        revert h
        simp only [noDoubleClose]
        intro h
        exact h
      have hstep : splitGo (c :: rest) (some x) MathMode.displayMath buf segs
          = splitGo rest (some c) MathMode.displayMath (buf ++ [c]) segs := by
        simp only [splitGo]
      rw [hstep, ih h2]
      simp
  | case4 x =>
      intro h buf segs
      simp [splitGo]

theorem splitGo_text_plain (p : List Char) (hp : ∀ c ∈ p, c ≠ '$') :
    ∀ (cs : List Char) (prev : Option Char) (buf : List Char)
      (segs : List (List Char × Bool)),
    splitGo (p ++ cs) prev MathMode.text buf segs
      = splitGo cs (lastPrev prev p) MathMode.text (buf ++ p) segs := by
  induction p with
  | nil => intro cs prev buf segs; simp [lastPrev]
  | cons c rest ih =>
      intro cs prev buf segs
      have hc : c ≠ '$' := hp c (by simp)
      have hstep : splitGo (c :: (rest ++ cs)) prev MathMode.text buf segs
          = splitGo (rest ++ cs) (some c) MathMode.text (buf ++ [c]) segs := by
        rw [splitGo]
        · intro r hc2
          exact absurd hc2 hc
        · intro hc2
          exact absurd hc2 hc
      rw [List.cons_append, hstep, ih (fun d hd => hp d (by simp [hd]))]
      simp [lastPrev]

theorem flushSeg_ne (segs : List (List Char × Bool)) (buf : List Char) (m : Bool)
    (h : buf ≠ []) : flushSeg segs buf m = segs ++ [(buf, m)] := by
  simp [flushSeg, h]

theorem splitGo_text_open_inline (u : List Char) (prev : Option Char)
    (hprev : prev ≠ some '\\') (hh : u.head? ≠ some '$') (buf : List Char)
    (segs : List (List Char × Bool)) :
    splitGo ('$' :: u) prev MathMode.text buf segs
      = splitGo u (some '$') MathMode.inlineMath ['$'] (flushSeg segs buf false) := by
  cases u with
  | nil =>
      rw [splitGo]
      exact if_neg hprev
  | cons c rest =>
      have hc : c ≠ '$' := by simpa using hh
      rw [splitGo]
      · exact if_neg hprev
      · intro r h1
        injection h1 with h3 h4
        exact hc h3

theorem splitGo_text_open_display (v : List Char) (prev : Option Char)
    (hprev : prev ≠ some '\\') (buf : List Char)
    (segs : List (List Char × Bool)) :
    splitGo ('$' :: '$' :: v) prev MathMode.text buf segs
      = splitGo v (some '$') MathMode.displayMath ['$', '$'] (flushSeg segs buf false) := by
  rw [splitGo]
  exact if_neg hprev

/-- C3: an opening `$`/`$$` with no matching closing delimiter before end of
text — the segmentation returns normally (the embedding is total by
construction) and the entire remainder of the text from the opening delimiter
is one unterminated math segment.  `p` is the plain text before the opening
delimiter (no `$` and not ending in a backslash); the disjunction covers an
inline opening `$` (`u` does not begin with a second `$` and contains no
unescaped closing `$`) and a display opening `$$` (no unescaped closing). -/
theorem splitByMathSpans_unterminated (p u : List Char)
    (hp : ∀ c ∈ p, c ≠ '$')
    (hlast : lastPrev none p ≠ some '\\')
    (hu : (u.head? ≠ some '$' ∧ noUnescapedDollar u '$' = true)
        ∨ (∃ v, u = '$' :: v ∧ noDoubleClose v '$' = true)) :
    splitByMathSpans (String.mk (p ++ '$' :: u))
      = (flushSeg [] p false ++ [('$' :: u, true)]).map
          (fun q => (String.mk q.1, q.2)) := by
  have hne : p ++ '$' :: u ≠ [] := by simp
  have hdata : (String.mk (p ++ '$' :: u)).data = p ++ '$' :: u := rfl
  rw [splitByMathSpans, hdata, splitByMathSpansL, if_neg hne, splitGo_text_plain p hp]
  rcases hu with ⟨hh, hno⟩ | ⟨v, rfl, hno⟩
  · rw [splitGo_text_open_inline u _ hlast hh, splitGo_inline_noClose u '$' hno]
    rw [flushSeg_ne _ _ _ (by simp)]
    simp
  · rw [splitGo_text_open_display v _ hlast, splitGo_display_noClose v '$' hno]
    rw [flushSeg_ne _ _ _ (by simp)]
    simp

/-- Witness for `splitByMathSpans_unterminated` at the concrete input
`"ab$xy"`: the result is `[("ab", plain), ("$xy", math)]`. -/
theorem splitByMathSpans_unterminated_witness :
    splitByMathSpans (String.mk (['a', 'b'] ++ '$' :: ['x', 'y']))
      = [(String.mk ['a', 'b'], false), (String.mk ['$', 'x', 'y'], true)] := by
  rw [splitByMathSpans_unterminated ['a', 'b'] ['x', 'y']
    (by decide) (by decide) (Or.inl (by constructor <;> decide))]
  rfl

example : mergeEqualsInText ("$11_{10}$ = $102_{3}$") = ("$11_{10} = 102_{3}$") := by
  decide

example : mergeEqualsInText ("12 = $1100_{2}$") = ("$12 = 1100_{2}$") := by
  decide

set_option maxHeartbeats 1000000 in
theorem pySplitLinesKeepGo_step (b : Char) (tail cur : List Char)
    (hb : isLineTerm b = false) :
    pySplitLinesKeepGo cur (b :: tail) = pySplitLinesKeepGo (b :: cur) tail := by
  have hbr : b ≠ '\r' := by
    intro h
    subst h
    simp [isLineTerm] at hb
  rw [pySplitLinesKeepGo.eq_def]
  split
  · rename_i heq
    exact absurd heq (by simp)
  · rename_i heq
    rw [List.cons.injEq] at heq
    exact absurd heq.1 hbr
  · rename_i x y heq
    rw [List.cons.injEq] at heq
    obtain ⟨h1, h2⟩ := heq
    subst h1
    subst h2
    rw [if_neg (by simp [hb])]

theorem pySplitLinesKeepGo_nl (tail cur : List Char) :
    pySplitLinesKeepGo cur ('\n' :: tail)
      = ('\n' :: cur).reverse :: pySplitLinesKeepGo [] tail := by
  rw [pySplitLinesKeepGo.eq_def]
  split
  · rename_i heq
    exact absurd heq (by simp)
  · rename_i heq
    rw [List.cons.injEq] at heq
    exact absurd heq.1 (by decide)
  · rename_i x y heq
    rw [List.cons.injEq] at heq
    obtain ⟨h1, h2⟩ := heq
    subst h1
    subst h2
    rw [if_pos (by simp [isLineTerm])]

theorem pySplitLinesKeepGo_body (body : List Char)
    (hb : ∀ c ∈ body, isLineTerm c = false) :
    ∀ (cur cs : List Char),
    pySplitLinesKeepGo cur (body ++ cs) = pySplitLinesKeepGo (body.reverse ++ cur) cs := by
  induction body with
  | nil => intro cur cs; simp
  | cons b bs ih =>
      intro cur cs
      rw [List.cons_append, pySplitLinesKeepGo_step b _ _ (hb b (by simp)),
        ih (fun c hc => hb c (by simp [hc]))]
      simp

theorem pySplitLinesKeepGo_line (l cs : List Char) (h : wfLine l) :
    pySplitLinesKeepGo [] (l ++ cs) = l :: pySplitLinesKeepGo [] cs := by
  obtain ⟨body, rfl, hbody⟩ := h
  rw [List.append_assoc, pySplitLinesKeepGo_body body hbody, List.append_nil,
    List.singleton_append, pySplitLinesKeepGo_nl]
  simp

theorem pySplitLinesKeep_flatten (L : List (List Char)) (h : ∀ l ∈ L, wfLine l) :
    pySplitLinesKeep L.flatten = L := by
  induction L with
  | nil => rfl
  | cons l ls ih =>
      rw [List.flatten_cons, pySplitLinesKeep, pySplitLinesKeepGo_line l _ (h l (by simp))]
      have := ih (fun x hx => h x (by simp [hx]))
      rw [pySplitLinesKeep] at this
      rw [this]

theorem normGo_buffer (tn : Option Nat) (A : List (List Char))
    (h : ∀ l ∈ A, fenceMarkerOf l = none) :
    ∀ (rest : List (List Char)) (buffer : List (List Char)),
    normGo tn (A ++ rest) buffer false none = normGo tn rest (buffer ++ A) false none := by
  induction A with
  | nil => intro rest buffer; simp
  | cons l ls ih =>
      intro rest buffer
      rw [List.cons_append, normGo, h l (by simp)]
      simp only [Bool.false_eq_true, if_false]
      rw [ih (fun x hx => h x (by simp [hx]))]
      simp

theorem normGo_fence (tn : Option Nat) (mk : List Char) (I : List (List Char))
    (h : ∀ l ∈ I, fenceMarkerOf l ≠ some mk) :
    ∀ (rest : List (List Char)) (buffer : List (List Char)),
    normGo tn (I ++ rest) buffer true (some mk) = I ++ normGo tn rest buffer true (some mk) := by
  induction I with
  | nil => intro rest buffer; simp
  | cons l ls ih =>
      intro rest buffer
      rw [List.cons_append, normGo]
      cases hf : fenceMarkerOf l with
      | none =>
          simp only [if_true]
          rw [ih (fun x hx => h x (by simp [hx]))]
          simp
      | some mk2 =>
          have hne : some mk2 ≠ some mk := by
            rw [← hf]; exact h l (by simp)
          simp only [Bool.not_true, Bool.false_eq_true, if_false, hne, ite_false]
          rw [ih (fun x hx => h x (by simp [hx]))]
          simp

/-- C6: fence-awareness of the markdown post-processor.  Decompose the input
into plain lines `A`, an opening fence line `op` (marker `m`, triple backtick
or triple tilde), interior lines `I` (none of which starts with `m`), the
matching closing line `cl`, and a remainder `C`.  The output copies `op`,
every line of `I`, and `cl` byte-for-byte; the inline transforms are applied
only to the flushed plain prefix `A` and, with fresh fence state, to `C` —
none of them touches the fenced interior. -/
theorem normalizeMathInMarkdown_fence_frame
    (tn : Option Nat) (m : List Char)
    (A I C : List (List Char)) (op cl : List Char)
    (hA : ∀ l ∈ A, wfLine l ∧ fenceMarkerOf l = none)
    (hop : wfLine op ∧ fenceMarkerOf op = some m)
    (hI : ∀ l ∈ I, wfLine l ∧ fenceMarkerOf l ≠ some m)
    (hcl : wfLine cl ∧ fenceMarkerOf cl = some m)
    (hC : ∀ l ∈ C, wfLine l) :
    normalizeMathInMarkdownL (A ++ op :: I ++ cl :: C).flatten tn
      = (flushBuf tn A).flatten ++ op ++ I.flatten ++ cl
          ++ (normGo tn C [] false none).flatten := by
  have hopne : op ≠ [] := by
    obtain ⟨body, rfl, _⟩ := hop.1
    simp
  have hflatne : (A ++ op :: I ++ cl :: C).flatten ≠ [] := by
    intro h
    rw [List.flatten_eq_nil_iff] at h
    exact hopne (h op (by simp))
  have hwf : ∀ l ∈ A ++ op :: I ++ cl :: C, wfLine l := by
    intro l hl
    simp only [List.mem_append, List.mem_cons] at hl
    rcases hl with (hl | rfl | hl) | rfl | hl
    · exact (hA l hl).1
    · exact hop.1
    · exact (hI l hl).1
    · exact hcl.1
    · exact hC l hl
  rw [normalizeMathInMarkdownL, if_neg hflatne, pySplitLinesKeep_flatten _ hwf]
  have hassoc : (A ++ op :: I ++ cl :: C : List (List Char))
      = A ++ (op :: (I ++ cl :: C)) := by simp
  rw [hassoc]
  rw [normGo_buffer tn A (fun l hl => (hA l hl).2) (op :: (I ++ cl :: C)) []]
  have hstep1 : normGo tn (op :: (I ++ cl :: C)) ([] ++ A) false none
      = flushBuf tn ([] ++ A) ++ op :: normGo tn (I ++ cl :: C) [] true (some m) := by
    rw [normGo, hop.2]
    simp
  rw [hstep1, normGo_fence tn m I (fun l hl => (hI l hl).2)]
  have hstep2 : normGo tn (cl :: C) [] true (some m)
      = cl :: normGo tn C [] false none := by
    rw [normGo, hcl.2]
    simp
  rw [hstep2]
  simp [List.append_assoc]

/-- Witness for the fence-frame theorem: the fenced `12 = $3$` line survives
byte-for-byte while the plain `1 = $2$` prefix is merged. -/
theorem normalizeMathInMarkdown_fence_frame_witness :
    normalizeMathInMarkdownL ("1 = $2$\n```\n12 = $3$\n```\n").data none
      = ("$1 = 2$\n```\n12 = $3$\n```\n").data := by
  have h := normalizeMathInMarkdown_fence_frame none ("```").data
    [("1 = $2$\n").data] [("12 = $3$\n").data] []
    ("```\n").data ("```\n").data
    (by
      intro l hl
      simp only [List.mem_singleton] at hl
      subst hl
      exact ⟨⟨("1 = $2$").data, by decide, by decide⟩, by decide⟩)
    ⟨⟨("```").data, by decide, by decide⟩, by decide⟩
    (by
      intro l hl
      simp only [List.mem_singleton] at hl
      subst hl
      exact ⟨⟨("12 = $3$").data, by decide, by decide⟩, by decide⟩)
    ⟨⟨("```").data, by decide, by decide⟩, by decide⟩
    (by intro l hl; simp at hl)
  have hin : ("1 = $2$\n```\n12 = $3$\n```\n").data
      = ([("1 = $2$\n").data] ++ ("```\n").data :: [("12 = $3$\n").data]
          ++ ("```\n").data :: ([] : List (List Char))).flatten := by decide
  rw [hin, h]
  decide

/-! ## C9, C2, C5 -/
/-- C9 (scenario A): sanitizing `<td><b></b><p>Hello</p></td>` prunes the
empty `<b>` (one empty-tag removal), collapses the single wrapping `<td>`
(one wrapper unwrap), yields `<p>Hello</p>`, and rendering that cleaned
fragment produces exactly `"Hello\n"`. -/
theorem cleanHtml_render_scenarioA :
    (cleanHtml [.elem "td" []
        [.elem "b" [] [], .elem "p" [] [.text ("Hello").data]]]).html
      = ("<p>Hello</p>").data
    ∧ (cleanHtml [.elem "td" []
        [.elem "b" [] [], .elem "p" [] [.text ("Hello").data]]]).stats.empty_tag_removed = 1
    ∧ (cleanHtml [.elem "td" []
        [.elem "b" [] [], .elem "p" [] [.text ("Hello").data]]]).stats.wrapper_unwrapped = 1
    ∧ htmlToMarkdown [.elem "p" [] [.text ("Hello").data]] = ("Hello\n").data := by
  exact ⟨by decide, by decide, by decide, by decide⟩

/-- C2 (failing input `<b><i></i></b>`): the first sanitizer pass removes
only the inner empty `<i>` (the pre-order snapshot judges `<b>` while it
still has a child), leaving `<b></b>`; the second pass, on the parse of that
output, removes `<b>` and increments `empty_tag_removed` — so re-running the
sanitizer on its own cleaned output performs a further rewrite and changes
the string, contradicting the claimed idempotence. -/
theorem cleanHtml_second_pass_rewrites :
    (cleanHtml [.elem "b" [] [.elem "i" [] []]]).html = ("<b></b>").data
    ∧ (cleanHtml [.elem "b" [] [.elem "i" [] []]]).stats.empty_tag_removed = 1
    ∧ (cleanHtml [.elem "b" [] []]).html = []
    ∧ (cleanHtml [.elem "b" [] []]).stats.empty_tag_removed = 1 := by
  exact ⟨by decide, by decide, by decide, by decide⟩

theorem stripChars_nil_all_space (t : List Char) (h : stripChars t = []) :
    t.all isSpaceChar = true := by
  rw [List.all_eq_true]
  intro c hc
  by_contra hcs
  simp only [Bool.not_eq_true] at hcs
  have h1 : t.dropWhile isSpaceChar ≠ [] := by
    intro hnil
    have := List.dropWhile_eq_nil_iff.mp hnil c hc
    rw [hcs] at this
    exact Bool.noConfusion this
  have h2 := h
  rw [stripChars] at h2
  rw [List.reverse_eq_nil_iff, List.dropWhile_eq_nil_iff] at h2
  have hhead : (t.dropWhile isSpaceChar).head h1
      ∈ (t.dropWhile isSpaceChar).reverse := by
    rw [List.mem_reverse]
    exact List.head_mem h1
  have hds : isSpaceChar ((t.dropWhile isSpaceChar).head h1) = true :=
    h2 _ hhead
  rw [List.head_dropWhile_not isSpaceChar t h1] at hds
  exact Bool.noConfusion hds

theorem subSupBaseSplit_none_of_space (t : List Char)
    (h : t.all isSpaceChar = true) : subSupBaseSplit t = none := by
  rw [subSupBaseSplit]
  have : (t.reverse.drop (t.reverse.takeWhile isSpaceChar).length) = [] := by
    have hall : t.reverse.all isSpaceChar = true := by
      rw [List.all_reverse]; exact h
    have : t.reverse.takeWhile isSpaceChar = t.reverse := by
      rw [List.takeWhile_eq_self_iff]
      exact fun c hc => (List.all_eq_true.mp hall) c hc
    rw [this]
    simp
  rw [this]
  simp

/-- C5: subscript/superscript conversion.  For a text run `t` followed by a
subscript with non-blank content `s` (script `_{s.strip()}`):
(a) if `t.strip()` is a complete single math span, the script is spliced
into it; (b) otherwise, if `t` has a trailing alphanumeric token, that token
becomes the base of a new span (text before it kept, trailing whitespace
dropped); (c) with no usable base the script alone becomes a bare math span
and `t` is untouched; (d) scenario B: text ending in `111` followed by
`<sub>10</sub>` converts to `$111_{10}$`. -/
theorem convertSubSup_cases (t s : List Char) (hs : ¬(stripChars s).isEmpty = true) :
    (isSingleMathSpan (stripChars t) = true →
      convertSubSupList [.text t, .elem "sub" [] [.text s]]
        = [.text (replaceFirstL (stripChars t)
            ('$' :: ((stripChars t).drop 1).dropLast
              ++ '_' :: '{' :: stripChars s ++ ['}', '$'])
            (t.length + 1) t)])
    ∧ (isSingleMathSpan (stripChars t) = false →
        ∀ before base, subSupBaseSplit t = some (before, base) →
        convertSubSupList [.text t, .elem "sub" [] [.text s]]
          = [.text (before ++ '$' :: base ++ '_' :: '{' :: stripChars s ++ ['}', '$'])])
    ∧ (isSingleMathSpan (stripChars t) = false → subSupBaseSplit t = none →
        convertSubSupList [.text t, .elem "sub" [] [.text s]]
          = [.text t, .text ('$' :: '_' :: '{' :: stripChars s ++ ['}', '$'])])
    ∧ convertSubSupList [.text ("x 111").data, .elem "sub" [] [.text ("10").data]]
        = [.text ("x $111_{10}$").data] := by
  have hpair : convertSubSupList [.text t, .elem "sub" [] [.text s]]
      = handleScript [.text t] "sub" (stripChars s) := by
    simp [convertSubSupList, nodeListSize, nodeSize, processSubSup,
      getTextStripSep, listStrings, nodeStrings, joinSep, hs]
  refine ⟨?_, ?_, ?_, by decide⟩
  · intro hspan
    have hne : (stripChars t).isEmpty = false := by
      cases h : stripChars t with
      | nil => rw [h] at hspan; simp [isSingleMathSpan] at hspan
      | cons a b => simp
    rw [hpair]
    simp [handleScript, splitWsSuffix, hne, hspan, asTexScript]
  · intro hspan before base hsplit
    have hne : (stripChars t).isEmpty = false := by
      cases h : stripChars t with
      | nil =>
          exfalso
          have hts : t.all isSpaceChar = true := by
            have := stripChars_nil_all_space t h
            exact this
          have : subSupBaseSplit t = none := by
            rw [subSupBaseSplit_none_of_space t hts]
          rw [this] at hsplit
          exact Option.noConfusion hsplit
      | cons a b => simp
    rw [hpair]
    simp [handleScript, splitWsSuffix, hne, hspan, hsplit, asTexScript]
  · intro hspan hsplit
    rw [hpair]
    by_cases hne : (stripChars t).isEmpty = true
    · simp [handleScript, splitWsSuffix, hne, asTexScript]
    · simp only [Bool.not_eq_true] at hne
      simp [handleScript, splitWsSuffix, hne, hspan, hsplit, asTexScript]

/-- Witness for `convertSubSup_cases` at `t = "x 111"`, `s = "10"` (the
scenario-B instance, via the base-token case). -/
theorem convertSubSup_cases_witness :
    ¬(stripChars ("10").data).isEmpty = true
    ∧ convertSubSupList [.text ("x 111").data, .elem "sub" [] [.text ("10").data]]
        = [.text ("x $111_{10}$").data] :=
  ⟨by decide,
    (convertSubSup_cases ("x 111").data ("10").data (by decide)).2.2.2⟩

/-! ### Dictionary and table lemmas -/
theorem dictGet_dictSet_self (d : List (String × TVal)) (k : String)
    (v : TVal) : dictGet (dictSet d k v) k = some v := by
  induction d with
  | nil => simp [dictSet, dictGet, List.find?]
  | cons p rest ih =>
      obtain ⟨k2, v2⟩ := p
      by_cases h : k2 = k
      · subst h
        simp [dictSet, dictGet, List.find?]
      · simpa [dictSet, dictGet, List.find?, h] using ih

theorem dictGet_dictSet_ne (d : List (String × TVal)) (k : String) (v : TVal)
    (k2 : String) (h : k2 ≠ k) :
    dictGet (dictSet d k v) k2 = dictGet d k2 := by
  have h' : ¬ k = k2 := Ne.symm h
  induction d with
  | nil => simp [dictSet, dictGet, List.find?, h']
  | cons p rest ih =>
      obtain ⟨k3, v3⟩ := p
      by_cases h3 : k3 = k
      · subst h3
        simp [dictSet, dictGet, List.find?, h']
      · by_cases h4 : k3 = k2
        · subst h4
          simp [dictSet, dictGet, List.find?, h3]
        · simpa [dictSet, dictGet, List.find?, h3, h4] using ih

theorem dictGet_dictPop_ne (d : List (String × TVal)) (k k2 : String)
    (h : k2 ≠ k) : dictGet (dictPop d k) k2 = dictGet d k2 := by
  induction d with
  | nil => simp [dictPop]
  | cons p rest ih =>
      obtain ⟨k3, v3⟩ := p
      by_cases h3 : k3 = k
      · subst h3
        simp [dictPop, dictGet, List.find?, Ne.symm h]
      · by_cases h4 : k3 = k2
        · subst h4
          simp [dictPop, dictGet, List.find?, h3]
        · simpa [dictPop, dictGet, List.find?, h3, h4] using ih

theorem dictGet_eq_none_of_not_mem (d : List (String × TVal)) (k : String)
    (h : k ∉ d.map Prod.fst) : dictGet d k = none := by
  induction d with
  | nil => simp [dictGet]
  | cons p rest ih =>
      obtain ⟨k2, v2⟩ := p
      simp only [List.map_cons, List.mem_cons, not_or] at h
      have h1 : ¬ k2 = k := fun hh => h.1 hh.symm
      simpa [dictGet, List.find?, h1] using ih h.2

theorem dictGet_dictPop_self (d : List (String × TVal)) (k : String)
    (h : (d.map Prod.fst).Nodup) : dictGet (dictPop d k) k = none := by
  induction d with
  | nil => simp [dictPop, dictGet]
  | cons p rest ih =>
      obtain ⟨k2, v2⟩ := p
      simp only [List.map_cons, List.nodup_cons] at h
      by_cases h2 : k2 = k
      · subst h2
        simpa [dictPop] using dictGet_eq_none_of_not_mem rest k2 h.1
      · simpa [dictPop, h2, dictGet, List.find?] using ih h.2

theorem dictSet_keys_sub (d : List (String × TVal)) (k : String) (v : TVal) :
    ∀ x ∈ (dictSet d k v).map Prod.fst, x = k ∨ x ∈ d.map Prod.fst := by
  induction d with
  | nil => simp [dictSet]
  | cons p rest ih =>
      obtain ⟨k2, v2⟩ := p
      intro x hx
      by_cases h2 : k2 = k
      · subst h2
        simp [dictSet] at hx ⊢
        tauto
      · simp only [dictSet, h2, if_false, List.map_cons, List.mem_cons] at hx
        simp only [List.map_cons, List.mem_cons]
        rcases hx with hx | hx
        · exact Or.inr (Or.inl hx)
        · rcases ih x hx with hh | hh
          · exact Or.inl hh
          · exact Or.inr (Or.inr hh)

theorem dictSet_keys_nodup (d : List (String × TVal)) (k : String) (v : TVal)
    (h : (d.map Prod.fst).Nodup) :
    ((dictSet d k v).map Prod.fst).Nodup := by
  induction d with
  | nil => simp [dictSet]
  | cons p rest ih =>
      obtain ⟨k2, v2⟩ := p
      simp only [List.map_cons, List.nodup_cons] at h
      by_cases h2 : k2 = k
      · subst h2
        simpa [dictSet, List.nodup_cons] using h
      · simp only [dictSet, h2, if_false, List.map_cons,
          List.nodup_cons]
        refine ⟨fun hx => ?_, ih h.2⟩
        rcases dictSet_keys_sub rest k v k2 hx with hh | hh
        · exact h2 hh
        · exact h.1 hh

theorem tableGet_tableSet_self (tb : List (List Char × List Char))
    (k v : List Char) : tableGet (tableSet tb k v) k = some v := by
  induction tb with
  | nil => simp [tableSet, tableGet, List.find?]
  | cons p rest ih =>
      obtain ⟨k2, v2⟩ := p
      by_cases h : k2 = k
      · subst h
        simp [tableSet, tableGet, List.find?]
      · simpa [tableSet, tableGet, List.find?, h] using ih

theorem tableGet_tableSet_ne (tb : List (List Char × List Char))
    (k v k2 : List Char) (h : k2 ≠ k) :
    tableGet (tableSet tb k v) k2 = tableGet tb k2 := by
  induction tb with
  | nil => simp [tableSet, tableGet, List.find?, Ne.symm h]
  | cons p rest ih =>
      obtain ⟨k3, v3⟩ := p
      by_cases h3 : k3 = k
      · subst h3
        simp [tableSet, tableGet, List.find?, Ne.symm h]
      · by_cases h4 : k3 = k2
        · subst h4
          simp [tableSet, tableGet, List.find?, h3]
        · simpa [tableSet, tableGet, List.find?, h3, h4] using ih

theorem tableGet_append_some (tb tl : List (List Char × List Char))
    (k : List Char) (e : List Char) (h : tableGet tb k = some e) :
    tableGet (tb ++ tl) k = some e := by
  induction tb with
  | nil => simp [tableGet, List.find?] at h
  | cons p rest ih =>
      obtain ⟨k2, v2⟩ := p
      by_cases h2 : k2 = k
      · subst h2
        simp [tableGet, List.find?] at h ⊢
        exact h
      · simp [tableGet, List.find?, h2] at h ⊢
        simpa [tableGet] using ih h

theorem tableGet_append_singleton_self (tb : List (List Char × List Char))
    (k v : List Char) (h : tableGet tb k = none) :
    tableGet (tb ++ [(k, v)]) k = some v := by
  induction tb with
  | nil => simp [tableGet, List.find?]
  | cons p rest ih =>
      obtain ⟨k3, v3⟩ := p
      by_cases h3 : k3 = k
      · subst h3
        simp [tableGet, List.find?] at h
      · simp [tableGet, List.find?, h3] at h ⊢
        simpa [tableGet, List.find?] using ih h

theorem tableGet_append_singleton_ne (tb : List (List Char × List Char))
    (k v k2 : List Char) (h : k ≠ k2) :
    tableGet (tb ++ [(k, v)]) k2 = tableGet tb k2 := by
  induction tb with
  | nil => simp [tableGet, List.find?, h]
  | cons p rest ih =>
      obtain ⟨k3, v3⟩ := p
      by_cases h3 : k3 = k2
      · subst h3
        simp [tableGet, List.find?]
      · simp [tableGet, List.find?, h3]
        simpa [tableGet, List.find?] using ih

/-! ### КЭС fold lemmas -/
theorem kesStep_of_invalid (st : KesState) (x : TVal)
    (hv : validCodeText x = none) :
    (kesStep st x).table = st.table ∧ (kesStep st x).conflicts = st.conflicts := by
  cases x with
  | vStr s0 =>
      simp only [validCodeText] at hv
      by_cases hemp : (stripChars s0).isEmpty
      · simp [kesStep, hemp]
      · simp only [hemp, if_false] at hv
        cases hext : extractKesCode (stripChars s0) with
        | none => simp [kesStep, hemp, hext]
        | some c => simp [hext] at hv
  | vNull => simp [kesStep]
  | vBool b => simp [kesStep]
  | vNum n => simp [kesStep]
  | vList l => simp [kesStep]
  | vDict d => simp [kesStep]

theorem validCodeText_vStr (s0 : List Char) (c t : List Char)
    (hv : validCodeText (.vStr s0) = some (c, t)) :
    ¬(stripChars s0).isEmpty = true ∧ extractKesCode (stripChars s0) = some c
      ∧ t = stripChars s0 := by
  simp only [validCodeText] at hv
  by_cases hemp : (stripChars s0).isEmpty
  · simp [hemp] at hv
  · simp only [hemp, if_false] at hv
    cases hext : extractKesCode (stripChars s0) with
    | none => simp [hext] at hv
    | some c2 =>
        simp [hext] at hv
        exact ⟨hemp, by rw [hv.1], hv.2.symm⟩

theorem kesStep_valid_shape (st : KesState) (x : TVal) (c t : List Char)
    (hv : validCodeText x = some (c, t)) :
    kesStep st x =
      (match tableGet st.table c with
       | none => { st with table := st.table ++ [(c, t)] }
       | some e =>
           if e ≠ t then
             { st with
               table := if e.length < t.length then tableSet st.table c t
                 else st.table,
               conflicts := st.conflicts + 1 }
           else st) := by
  cases x with
  | vStr s0 =>
      obtain ⟨hemp, hext, ht⟩ := validCodeText_vStr s0 c t hv
      subst ht
      simp [kesStep, hemp, hext]
  | vNull => simp [validCodeText] at hv
  | vBool b => simp [validCodeText] at hv
  | vNum n => simp [validCodeText] at hv
  | vList l => simp [validCodeText] at hv
  | vDict d => simp [validCodeText] at hv

theorem kesStateFold_cons (x : TVal) (rest : List TVal) (st : KesState) :
    kesStateFold (x :: rest) st = kesStateFold rest (kesStep st x) := rfl

theorem kesOccurrences_cons_invalid (code : List Char) (x : TVal)
    (rest : List TVal) (hv : validCodeText x = none) :
    kesOccurrences code (x :: rest) = kesOccurrences code rest := by
  simp [kesOccurrences, List.filterMap_cons, hv]

theorem kesOccurrences_cons_valid (code : List Char) (x : TVal)
    (rest : List TVal) (c t : List Char) (hv : validCodeText x = some (c, t)) :
    kesOccurrences code (x :: rest) =
      if c = code then t :: kesOccurrences code rest
      else kesOccurrences code rest := by
  by_cases hc : c = code
  · simp [kesOccurrences, List.filterMap_cons, hv, hc]
  · simp [kesOccurrences, List.filterMap_cons, hv, hc]

theorem kesStep_conflicts_le (st : KesState) (x : TVal) :
    st.conflicts ≤ (kesStep st x).conflicts := by
  cases hv : validCodeText x with
  | none => exact le_of_eq (kesStep_of_invalid st x hv).2.symm
  | some ct =>
      obtain ⟨c, t⟩ := ct
      rw [kesStep_valid_shape st x c t hv]
      cases htab : tableGet st.table c with
      | none => simp
      | some e =>
          by_cases he : e = t
          · simp [he]
          · simp [he]

theorem kesStateFold_conflicts_le (items : List TVal) (st : KesState) :
    st.conflicts ≤ (kesStateFold items st).conflicts := by
  induction items generalizing st with
  | nil => simp [kesStateFold]
  | cons x rest ih =>
      rw [kesStateFold_cons]
      exact le_trans (kesStep_conflicts_le st x) (ih (kesStep st x))

theorem kesStateFold_entry_some (code : List Char) (items : List TVal) :
    ∀ (st : KesState) (e0 : List Char), tableGet st.table code = some e0 →
    ∃ t, tableGet (kesStateFold items st).table code = some t
      ∧ (t = e0 ∨ t ∈ kesOccurrences code items)
      ∧ e0.length ≤ t.length
      ∧ ∀ u ∈ kesOccurrences code items, u.length ≤ t.length := by
  induction items with
  | nil =>
      intro st e0 h
      exact ⟨e0, by simpa [kesStateFold] using h, Or.inl rfl, le_refl _,
        by simp [kesOccurrences]⟩
  | cons x rest ih =>
      intro st e0 h
      rw [kesStateFold_cons]
      cases hv : validCodeText x with
      | none =>
          rw [kesOccurrences_cons_invalid code x rest hv]
          exact ih (kesStep st x) e0 (by rw [(kesStep_of_invalid st x hv).1]; exact h)
      | some ct =>
          obtain ⟨c, t⟩ := ct
          rw [kesOccurrences_cons_valid code x rest c t hv]
          by_cases hc : c = code
          · subst hc
            simp only [if_pos rfl]
            rw [kesStep_valid_shape st x c t hv, h]
            by_cases he : e0 = t
            · subst he
              simp only [ne_eq, eq_self_iff_true, not_true_eq_false, if_false]
              obtain ⟨t', h1, h2, h3, h4⟩ := ih st e0 h
              refine ⟨t', h1, ?_, h3, ?_⟩
              · rcases h2 with h2 | h2
                · exact Or.inl h2
                · exact Or.inr (List.mem_cons_of_mem _ h2)
              · intro u hu
                rcases List.mem_cons.mp hu with hu | hu
                · rw [hu]
                  exact h3
                · exact h4 u hu
            · simp only [ne_eq, he, not_false_eq_true, if_true]
              by_cases hlen : e0.length < t.length
              · simp only [hlen, if_true]
                obtain ⟨t', h1, h2, h3, h4⟩ :=
                  ih { st with
                        table := tableSet st.table c t,
                        conflicts := st.conflicts + 1 } t
                    (by simpa using tableGet_tableSet_self st.table c t)
                refine ⟨t', h1, ?_, le_trans (le_of_lt hlen) h3, ?_⟩
                · rcases h2 with h2 | h2
                  · exact Or.inr (h2 ▸ List.mem_cons_self _ _)
                  · exact Or.inr (List.mem_cons_of_mem _ h2)
                · intro u hu
                  rcases List.mem_cons.mp hu with hu | hu
                  · rw [hu]
                    exact h3
                  · exact h4 u hu
              · simp only [hlen, if_false]
                obtain ⟨t', h1, h2, h3, h4⟩ :=
                  ih { st with conflicts := st.conflicts + 1 } e0 (by simpa using h)
                refine ⟨t', h1, ?_, h3, ?_⟩
                · rcases h2 with h2 | h2
                  · exact Or.inl h2
                  · exact Or.inr (List.mem_cons_of_mem _ h2)
                · intro u hu
                  rcases List.mem_cons.mp hu with hu | hu
                  · rw [hu]
                    exact le_trans (Nat.le_of_not_lt hlen) h3
                  · exact h4 u hu
          · simp only [hc, if_false]
            have hpres : tableGet (kesStep st x).table code = some e0 := by
              rw [kesStep_valid_shape st x c t hv]
              cases htab : tableGet st.table c with
              | none => simpa using tableGet_append_some st.table [(c, t)] code e0 h
              | some e =>
                  by_cases he : e = t
                  · simpa [he] using h
                  · simp only [ne_eq, he, not_false_eq_true, if_true]
                    by_cases hlen : e.length < t.length
                    · simp only [hlen, if_true]
                      simpa [tableGet_tableSet_ne st.table c t code
                        (fun hh => hc hh.symm)] using h
                    · simpa [hlen] using h
            exact ih (kesStep st x) e0 hpres

theorem kesStateFold_entry_none (code : List Char) (items : List TVal) :
    ∀ st : KesState, tableGet st.table code = none →
    kesOccurrences code items ≠ [] →
    ∃ t, tableGet (kesStateFold items st).table code = some t
      ∧ t ∈ kesOccurrences code items
      ∧ ∀ u ∈ kesOccurrences code items, u.length ≤ t.length := by
  induction items with
  | nil =>
      intro st h hne
      simp [kesOccurrences] at hne
  | cons x rest ih =>
      intro st h hne
      rw [kesStateFold_cons]
      cases hv : validCodeText x with
      | none =>
          rw [kesOccurrences_cons_invalid code x rest hv] at hne ⊢
          exact ih (kesStep st x)
            (by rw [(kesStep_of_invalid st x hv).1]; exact h) hne
      | some ct =>
          obtain ⟨c, t⟩ := ct
          rw [kesOccurrences_cons_valid code x rest c t hv] at hne ⊢
          by_cases hc : c = code
          · subst hc
            simp only [if_pos rfl] at hne ⊢
            rw [kesStep_valid_shape st x c t hv, h]
            obtain ⟨t', h1, h2, h3, h4⟩ :=
              kesStateFold_entry_some c rest
                { st with table := st.table ++ [(c, t)] } t
                (by simpa using tableGet_append_singleton_self st.table c t h)
            refine ⟨t', h1, ?_, ?_⟩
            · rcases h2 with h2 | h2
              · exact h2 ▸ List.mem_cons_self _ _
              · exact List.mem_cons_of_mem _ h2
            · intro u hu
              rcases List.mem_cons.mp hu with hu | hu
              · rw [hu]
                exact h3
              · exact h4 u hu
          · simp only [hc, if_false] at hne ⊢
            have hpres : tableGet (kesStep st x).table code = none := by
              rw [kesStep_valid_shape st x c t hv]
              cases htab : tableGet st.table c with
              | none =>
                  simpa using
                    (tableGet_append_singleton_ne st.table c t code hc).trans h
              | some e =>
                  by_cases he : e = t
                  · simpa [he] using h
                  · simp only [ne_eq, he, not_false_eq_true, if_true]
                    by_cases hlen : e.length < t.length
                    · simp only [hlen, if_true]
                      simpa [tableGet_tableSet_ne st.table c t code
                        (fun hh => hc hh.symm)] using h
                    · simpa [hlen] using h
            exact ih (kesStep st x) hpres hne

theorem kesStateFold_conflict_some (code : List Char) (items : List TVal) :
    ∀ (st : KesState) (e0 : List Char), tableGet st.table code = some e0 →
    (∃ u ∈ kesOccurrences code items, u ≠ e0) →
    st.conflicts + 1 ≤ (kesStateFold items st).conflicts := by
  induction items with
  | nil =>
      intro st e0 h hdiff
      simp [kesOccurrences] at hdiff
  | cons x rest ih =>
      intro st e0 h hdiff
      rw [kesStateFold_cons]
      cases hv : validCodeText x with
      | none =>
          rw [kesOccurrences_cons_invalid code x rest hv] at hdiff
          have heq := kesStep_of_invalid st x hv
          calc st.conflicts + 1
              = (kesStep st x).conflicts + 1 := by rw [heq.2]
            _ ≤ _ := ih (kesStep st x) e0 (by rw [heq.1]; exact h) hdiff
      | some ct =>
          obtain ⟨c, t⟩ := ct
          rw [kesOccurrences_cons_valid code x rest c t hv] at hdiff
          by_cases hc : c = code
          · subst hc
            simp only [if_pos rfl] at hdiff
            by_cases he : t = e0
            · subst he
              obtain ⟨u, hu, hne⟩ := hdiff
              have hu2 : u ∈ kesOccurrences c rest := by
                rcases List.mem_cons.mp hu with hu | hu
                · exact absurd hu hne
                · exact hu
              have hstep : kesStep st x = st := by
                rw [kesStep_valid_shape st x c t hv, h]
                simp
              rw [hstep]
              exact ih st t h ⟨u, hu2, hne⟩
            · have hne0 : e0 ≠ t := fun hh => he hh.symm
              have hstep : (kesStep st x).conflicts = st.conflicts + 1 := by
                rw [kesStep_valid_shape st x c t hv, h]
                simp [hne0]
              calc st.conflicts + 1 = (kesStep st x).conflicts := hstep.symm
                _ ≤ _ := kesStateFold_conflicts_le rest (kesStep st x)
          · simp only [hc, if_false] at hdiff
            have hpres : tableGet (kesStep st x).table code = some e0 := by
              rw [kesStep_valid_shape st x c t hv]
              cases htab : tableGet st.table c with
              | none => simpa using tableGet_append_some st.table [(c, t)] code e0 h
              | some e =>
                  by_cases he : e = t
                  · simpa [he] using h
                  · simp only [ne_eq, he, not_false_eq_true, if_true]
                    by_cases hlen : e.length < t.length
                    · simp only [hlen, if_true]
                      simpa [tableGet_tableSet_ne st.table c t code
                        (fun hh => hc hh.symm)] using h
                    · simpa [hlen] using h
            calc st.conflicts + 1 ≤ (kesStep st x).conflicts + 1 :=
                  Nat.add_le_add_right (kesStep_conflicts_le st x) 1
              _ ≤ _ := ih (kesStep st x) e0 hpres hdiff

theorem kesStateFold_conflict_none (code : List Char) (items : List TVal) :
    ∀ st : KesState, tableGet st.table code = none →
    (∃ u ∈ kesOccurrences code items, ∃ v ∈ kesOccurrences code items, u ≠ v) →
    st.conflicts + 1 ≤ (kesStateFold items st).conflicts := by
  induction items with
  | nil =>
      intro st h hdiff
      simp [kesOccurrences] at hdiff
  | cons x rest ih =>
      intro st h hdiff
      rw [kesStateFold_cons]
      cases hv : validCodeText x with
      | none =>
          rw [kesOccurrences_cons_invalid code x rest hv] at hdiff
          have heq := kesStep_of_invalid st x hv
          calc st.conflicts + 1
              = (kesStep st x).conflicts + 1 := by rw [heq.2]
            _ ≤ _ := ih (kesStep st x) (by rw [heq.1]; exact h) hdiff
      | some ct =>
          obtain ⟨c, t⟩ := ct
          rw [kesOccurrences_cons_valid code x rest c t hv] at hdiff
          by_cases hc : c = code
          · subst hc
            simp only [if_pos rfl] at hdiff
            have hstep : kesStep st x = { st with table := st.table ++ [(c, t)] } := by
              rw [kesStep_valid_shape st x c t hv, h]
            have hins : tableGet (kesStep st x).table c = some t := by
              rw [hstep]
              simpa using tableGet_append_singleton_self st.table c t h
            obtain ⟨u, hu, v, hv2, huv⟩ := hdiff
            have hdiff2 : ∃ w ∈ kesOccurrences c rest, w ≠ t := by
              by_cases hut : u = t
              · subst hut
                refine ⟨v, ?_, fun hh => huv hh.symm⟩
                rcases List.mem_cons.mp hv2 with hv2 | hv2
                · exact absurd hv2.symm huv
                · exact hv2
              · refine ⟨u, ?_, hut⟩
                rcases List.mem_cons.mp hu with hu | hu
                · exact absurd hu hut
                · exact hu
            have hcf : (kesStep st x).conflicts = st.conflicts := by
              rw [hstep]
            exact hcf ▸ kesStateFold_conflict_some c rest (kesStep st x) t hins hdiff2
          · simp only [hc, if_false] at hdiff
            have hpres : tableGet (kesStep st x).table code = none := by
              rw [kesStep_valid_shape st x c t hv]
              cases htab : tableGet st.table c with
              | none =>
                  simpa using
                    (tableGet_append_singleton_ne st.table c t code hc).trans h
              | some e =>
                  by_cases he : e = t
                  · simpa [he] using h
                  · simp only [ne_eq, he, not_false_eq_true, if_true]
                    by_cases hlen : e.length < t.length
                    · simp only [hlen, if_true]
                      simpa [tableGet_tableSet_ne st.table c t code
                        (fun hh => hc hh.symm)] using h
                    · simpa [hlen] using h
            calc st.conflicts + 1 ≤ (kesStep st x).conflicts + 1 :=
                  Nat.add_le_add_right (kesStep_conflicts_le st x) 1
              _ ≤ _ := ih (kesStep st x) hpres hdiff

theorem kesStep_conflicts_eq (st : KesState) (x : TVal) :
    (kesStep st x).conflicts = st.conflicts +
      (match validCodeText x with
       | some ct =>
           (match tableGet st.table ct.1 with
            | some e => if e = ct.2 then 0 else 1
            | none => 0)
       | none => 0) := by
  cases hv : validCodeText x with
  | none => simpa using (kesStep_of_invalid st x hv).2
  | some ct =>
      obtain ⟨c, t⟩ := ct
      rw [kesStep_valid_shape st x c t hv]
      cases htab : tableGet st.table c with
      | none => simp [htab]
      | some e =>
          by_cases he : e = t
          · simp [htab, he]
          · simp [htab, he]

/-- C8: reference-entry conflict resolution — when an identifier occurs with
two or more distinct display texts across the batch, the final
`kes_text_by_code` table maps it to a display text of maximal length among
its occurrences, the `kes_conflicts` counter has been incremented (exactly
one increment per occurrence that disagreed with the table entry of its
moment, as the step law states), and processing continues past conflicts:
every identifier with at least one valid occurrence keeps an entry. -/
theorem kes_conflict_resolution (items : List TVal) (code : List Char)
    (h2 : ∃ u ∈ kesOccurrences code items,
      ∃ v ∈ kesOccurrences code items, u ≠ v) :
    (∃ t, tableGet (kesBatch items).table code = some t
        ∧ t ∈ kesOccurrences code items
        ∧ ∀ u ∈ kesOccurrences code items, u.length ≤ t.length)
    ∧ 1 ≤ (kesBatch items).conflicts
    ∧ (∀ (st : KesState) (x : TVal),
        (kesStep st x).conflicts = st.conflicts +
          (match validCodeText x with
           | some ct =>
               (match tableGet st.table ct.1 with
                | some e => if e = ct.2 then 0 else 1
                | none => 0)
           | none => 0))
    ∧ ∀ c2 : List Char, kesOccurrences c2 items ≠ [] →
        ∃ t2, tableGet (kesBatch items).table c2 = some t2 := by
  have hne : kesOccurrences code items ≠ [] := by
    obtain ⟨u, hu, _⟩ := h2
    exact List.ne_nil_of_mem hu
  refine ⟨?_, ?_, kesStep_conflicts_eq, ?_⟩
  · exact kesStateFold_entry_none code items ⟨[], 0, 0⟩ rfl hne
  · simpa using kesStateFold_conflict_none code items ⟨[], 0, 0⟩ rfl h2
  · intro c2 hne2
    obtain ⟨t2, ht2, _⟩ := kesStateFold_entry_none c2 items ⟨[], 0, 0⟩ rfl hne2
    exact ⟨t2, ht2⟩

/-- Concrete instance of the conflict-resolution theorem: the identifier
`1.2` occurs with the two distinct texts `1.2 Alpha` and `1.2 Beta!!`. -/
theorem kes_conflict_resolution_witness :
    (∃ t, tableGet (kesBatch kesWitnessItems).table (("1.2").data) = some t
        ∧ t ∈ kesOccurrences (("1.2").data) kesWitnessItems
        ∧ ∀ u ∈ kesOccurrences (("1.2").data) kesWitnessItems,
            u.length ≤ t.length)
    ∧ 1 ≤ (kesBatch kesWitnessItems).conflicts
    ∧ (∀ (st : KesState) (x : TVal),
        (kesStep st x).conflicts = st.conflicts +
          (match validCodeText x with
           | some ct =>
               (match tableGet st.table ct.1 with
                | some e => if e = ct.2 then 0 else 1
                | none => 0)
           | none => 0))
    ∧ ∀ c2 : List Char, kesOccurrences c2 kesWitnessItems ≠ [] →
        ∃ t2, tableGet (kesBatch kesWitnessItems).table c2 = some t2 :=
  kes_conflict_resolution kesWitnessItems (("1.2").data) (by decide)

/-! ### Row transform lemmas -/
theorem rowAfterMeta_get_ne (row : List (String × TVal)) (k : String)
    (h : k ≠ ("meta")) : dictGet (rowAfterMeta row) k = dictGet row k := by
  cases hm : metaReplaced row with
  | none => simp [rowAfterMeta, hm]
  | some p =>
      obtain ⟨m, raw⟩ := p
      simp [rowAfterMeta, hm, dictGet_dictSet_ne _ _ _ _ h]

theorem rowAfterMeta_keys_nodup (row : List (String × TVal))
    (h : (row.map Prod.fst).Nodup) :
    ((rowAfterMeta row).map Prod.fst).Nodup := by
  cases hm : metaReplaced row with
  | none => simpa [rowAfterMeta, hm] using h
  | some p =>
      obtain ⟨m, raw⟩ := p
      simp only [rowAfterMeta, hm]
      exact dictSet_keys_nodup _ _ _ h

theorem row3_qt (row : List (String × TVal)) (a b : TVal) :
    rowStr (dictSet (dictSet (rowAfterMeta row) ("question_html_clean") a)
        ("question_md") b) ("question_text") =
      rowStr row ("question_text") := by
  simp only [rowStr]
  rw [dictGet_dictSet_ne _ _ _ _ (by decide),
    dictGet_dictSet_ne _ _ _ _ (by decide),
    rowAfterMeta_get_ne row _ (by decide)]

theorem row3_att (row : List (String × TVal)) (a b : TVal) :
    rowTruthy (dictSet (dictSet (rowAfterMeta row) ("question_html_clean") a)
        ("question_md") b) ("attachments") =
      rowTruthy row ("attachments") := by
  simp only [rowTruthy]
  rw [dictGet_dictSet_ne _ _ _ _ (by decide),
    dictGet_dictSet_ne _ _ _ _ (by decide),
    rowAfterMeta_get_ne row _ (by decide)]

theorem rowFinalPrePop_get_other (parse : List Char → List Node)
    (row : List (String × TVal)) (k : String)
    (h1 : k ≠ ("question_html_clean")) (h2 : k ≠ ("question_md"))
    (h3 : k ≠ ("requires_attachments")) (h4 : k ≠ ("question_text"))
    (h5 : k ≠ ("meta")) :
    dictGet (rowFinalPrePop parse row) k = dictGet row k := by
  simp only [rowFinalPrePop]
  split
  · rw [dictGet_dictSet_ne _ _ _ _ h4, dictGet_dictSet_ne _ _ _ _ h3,
      dictGet_dictSet_ne _ _ _ _ h2, dictGet_dictSet_ne _ _ _ _ h1,
      rowAfterMeta_get_ne row _ h5]
  · rw [dictGet_dictSet_ne _ _ _ _ h3, dictGet_dictSet_ne _ _ _ _ h2,
      dictGet_dictSet_ne _ _ _ _ h1, rowAfterMeta_get_ne row _ h5]

theorem rowFinalPrePop_get_qhc (parse : List Char → List Node)
    (row : List (String × TVal)) :
    dictGet (rowFinalPrePop parse row) ("question_html_clean") =
      some (.vStr (rowClean parse row).html) := by
  simp only [rowFinalPrePop, rowClean]
  split
  · rw [dictGet_dictSet_ne _ _ _ _ (by decide),
      dictGet_dictSet_ne _ _ _ _ (by decide),
      dictGet_dictSet_ne _ _ _ _ (by decide), dictGet_dictSet_self]
  · rw [dictGet_dictSet_ne _ _ _ _ (by decide),
      dictGet_dictSet_ne _ _ _ _ (by decide), dictGet_dictSet_self]

theorem rowFinalPrePop_get_qmd (parse : List Char → List Node)
    (row : List (String × TVal)) :
    dictGet (rowFinalPrePop parse row) ("question_md") =
      some (.vStr (htmlToMarkdown (parse (rowClean parse row).html))) := by
  simp only [rowFinalPrePop, rowClean]
  split
  · rw [dictGet_dictSet_ne _ _ _ _ (by decide),
      dictGet_dictSet_ne _ _ _ _ (by decide), dictGet_dictSet_self]
  · rw [dictGet_dictSet_ne _ _ _ _ (by decide), dictGet_dictSet_self]

theorem rowFinalPrePop_get_ra (parse : List Char → List Node)
    (row : List (String × TVal)) :
    dictGet (rowFinalPrePop parse row) ("requires_attachments") =
      some (.vBool (rowTruthy row ("attachments")
        || (rowClean parse row).bannerRemoved || rowNotice row)) := by
  simp only [rowFinalPrePop, rowClean, rowNotice]
  rw [row3_qt, row3_att]
  split
  · rw [dictGet_dictSet_ne _ _ _ _ (by decide), dictGet_dictSet_self]
  · rw [dictGet_dictSet_self]

theorem rowFinalPrePop_get_qt_true (parse : List Char → List Node)
    (row : List (String × TVal))
    (hb : ((rowClean parse row).bannerRemoved || rowNotice row) = true) :
    dictGet (rowFinalPrePop parse row) ("question_text") =
      some (.vStr (collapseWsStrip
        (noticeSub ((rowStr row ("question_text")).length + 1)
          (rowStr row ("question_text"))))) := by
  simp only [rowClean, rowNotice] at hb
  simp only [rowFinalPrePop]
  rw [row3_qt, row3_att]
  split
  · rw [dictGet_dictSet_self]
  · rename_i hcond
    exact absurd hb hcond

theorem rowFinalPrePop_get_qt_false (parse : List Char → List Node)
    (row : List (String × TVal))
    (hb : ((rowClean parse row).bannerRemoved || rowNotice row) = false) :
    dictGet (rowFinalPrePop parse row) ("question_text") =
      dictGet row ("question_text") := by
  simp only [rowClean, rowNotice] at hb
  simp only [rowFinalPrePop]
  rw [row3_qt, row3_att]
  split
  · rename_i hcond
    rw [hcond] at hb
    exact absurd hb (by simp)
  · rw [dictGet_dictSet_ne _ _ _ _ (by decide),
      dictGet_dictSet_ne _ _ _ _ (by decide),
      dictGet_dictSet_ne _ _ _ _ (by decide),
      rowAfterMeta_get_ne row _ (by decide)]

theorem rowFinalPrePop_get_meta (parse : List Char → List Node)
    (row : List (String × TVal)) :
    dictGet (rowFinalPrePop parse row) ("meta") =
      dictGet (rowAfterMeta row) ("meta") := by
  simp only [rowFinalPrePop]
  split
  · rw [dictGet_dictSet_ne _ _ _ _ (by decide),
      dictGet_dictSet_ne _ _ _ _ (by decide),
      dictGet_dictSet_ne _ _ _ _ (by decide),
      dictGet_dictSet_ne _ _ _ _ (by decide)]
  · rw [dictGet_dictSet_ne _ _ _ _ (by decide),
      dictGet_dictSet_ne _ _ _ _ (by decide),
      dictGet_dictSet_ne _ _ _ _ (by decide)]

theorem rowFinalPrePop_keys_nodup (parse : List Char → List Node)
    (row : List (String × TVal)) (h : (row.map Prod.fst).Nodup) :
    ((rowFinalPrePop parse row).map Prod.fst).Nodup := by
  simp only [rowFinalPrePop]
  split
  · exact dictSet_keys_nodup _ _ _ (dictSet_keys_nodup _ _ _
      (dictSet_keys_nodup _ _ _ (dictSet_keys_nodup _ _ _
        (rowAfterMeta_keys_nodup row h))))
  · exact dictSet_keys_nodup _ _ _ (dictSet_keys_nodup _ _ _
      (dictSet_keys_nodup _ _ _ (rowAfterMeta_keys_nodup row h)))

/-- C7: for every task record whose attachment field is a list, the output
`requires_attachments` flag is true exactly when the sanitizer removed an
attachment-banner row from the HTML, or the plain-text question field
contains the banner sentence, or the attachment list is non-empty. -/
theorem processRow_requires_attachments (parse : List Char → List Node)
    (st : KesState) (row : List (String × TVal)) (atts : List TVal)
    (hatts : dictGet row ("attachments") = some (.vList atts)) :
    ∃ b, dictGet (processRow parse st row).2 ("requires_attachments") =
        some (.vBool b)
      ∧ (b = true ↔ ((rowClean parse row).bannerRemoved = true
          ∨ rowNotice row = true ∨ atts ≠ [])) := by
  refine ⟨rowTruthy row ("attachments") || (rowClean parse row).bannerRemoved
    || rowNotice row, ?_, ?_⟩
  · show dictGet (dictPop (rowFinalPrePop parse row) ("question_html")) _ = _
    rw [dictGet_dictPop_ne _ _ _ (by decide), rowFinalPrePop_get_ra]
  · rw [rowTruthy, hatts]
    simp only [truthyOfOpt, truthy, Bool.or_eq_true, Bool.not_eq_true']
    constructor
    · intro h
      rcases h with (h | h) | h
      · exact Or.inr (Or.inr (by simpa using h))
      · exact Or.inl h
      · exact Or.inr (Or.inl h)
    · intro h
      rcases h with h | h | h
      · exact Or.inl (Or.inr h)
      · exact Or.inr h
      · exact Or.inl (Or.inl (by simpa using h))

/-- Concrete instance of the attachments-flag theorem on a row whose
attachment list is non-empty. -/
theorem processRow_requires_attachments_witness :
    dictGet c7Row ("attachments") = some (.vList [.vNull])
    ∧ ∃ b, dictGet (processRow emptyParse ⟨[], 0, 0⟩ c7Row).2
          ("requires_attachments") = some (.vBool b)
        ∧ (b = true ↔ ((rowClean emptyParse c7Row).bannerRemoved = true
            ∨ rowNotice c7Row = true ∨ ([TVal.vNull] : List TVal) ≠ [])) :=
  ⟨by decide,
    processRow_requires_attachments emptyParse ⟨[], 0, 0⟩ c7Row [.vNull]
      (by decide)⟩

/-- C10: output-record frame of the main loop.  The output row drops the raw
`question_html`, adds `question_html_clean` (the sanitized HTML),
`question_md` (its Markdown rendering) and `requires_attachments`, rewrites
`question_text` only when the attachment banner was detected in the HTML or
in the text (and then to the banner-stripped, whitespace-collapsed text),
replaces `meta["КЭС"]` by the list of extracted codes exactly when `meta` is
a dict holding a `КЭС` list, and leaves every other field unchanged. -/
theorem processRow_output_frame (parse : List Char → List Node)
    (st : KesState) (row : List (String × TVal))
    (hnodup : (row.map Prod.fst).Nodup) :
    dictGet (processRow parse st row).2 ("question_html") = none
    ∧ dictGet (processRow parse st row).2 ("question_html_clean") =
        some (.vStr (rowClean parse row).html)
    ∧ dictGet (processRow parse st row).2 ("question_md") =
        some (.vStr (htmlToMarkdown (parse (rowClean parse row).html)))
    ∧ dictGet (processRow parse st row).2 ("requires_attachments") =
        some (.vBool (rowTruthy row ("attachments")
          || (rowClean parse row).bannerRemoved || rowNotice row))
    ∧ (∀ k : String, k ≠ ("question_html") → k ≠ ("question_html_clean") →
        k ≠ ("question_md") → k ≠ ("requires_attachments") →
        k ≠ ("question_text") → k ≠ ("meta") →
        dictGet (processRow parse st row).2 k = dictGet row k)
    ∧ (((rowClean parse row).bannerRemoved || rowNotice row) = false →
        dictGet (processRow parse st row).2 ("question_text") =
          dictGet row ("question_text"))
    ∧ (((rowClean parse row).bannerRemoved || rowNotice row) = true →
        dictGet (processRow parse st row).2 ("question_text") =
          some (.vStr (collapseWsStrip
            (noticeSub ((rowStr row ("question_text")).length + 1)
              (rowStr row ("question_text"))))))
    ∧ (∀ meta raw, metaReplaced row = some (meta, raw) →
        dictGet (processRow parse st row).2 ("meta") =
          some (.vDict (dictSet meta ("КЭС")
            (.vList ((kesCodes raw).map TVal.vStr)))))
    ∧ (metaReplaced row = none →
        dictGet (processRow parse st row).2 ("meta") = dictGet row ("meta")) := by
  have hpop : (processRow parse st row).2 =
      dictPop (rowFinalPrePop parse row) ("question_html") := rfl
  rw [hpop]
  refine ⟨?_, ?_, ?_, ?_, ?_, ?_, ?_, ?_, ?_⟩
  · exact dictGet_dictPop_self _ _ (rowFinalPrePop_keys_nodup parse row hnodup)
  · rw [dictGet_dictPop_ne _ _ _ (by decide), rowFinalPrePop_get_qhc]
  · rw [dictGet_dictPop_ne _ _ _ (by decide), rowFinalPrePop_get_qmd]
  · rw [dictGet_dictPop_ne _ _ _ (by decide), rowFinalPrePop_get_ra]
  · intro k h1 h2 h3 h4 h5 h6
    rw [dictGet_dictPop_ne _ _ _ h1,
      rowFinalPrePop_get_other parse row k h2 h3 h4 h5 h6]
  · intro hb
    rw [dictGet_dictPop_ne _ _ _ (by decide),
      rowFinalPrePop_get_qt_false parse row hb]
  · intro hb
    rw [dictGet_dictPop_ne _ _ _ (by decide),
      rowFinalPrePop_get_qt_true parse row hb]
  · intro meta raw hm
    rw [dictGet_dictPop_ne _ _ _ (by decide), rowFinalPrePop_get_meta,
      rowAfterMeta, hm, dictGet_dictSet_self]
  · intro hm
    rw [dictGet_dictPop_ne _ _ _ (by decide), rowFinalPrePop_get_meta,
      rowAfterMeta, hm]

/-- Concrete instance of the output-record frame: on a five-field row the
raw `question_html` is gone from the output. -/
theorem processRow_output_frame_witness :
    (c10Row.map Prod.fst).Nodup
    ∧ dictGet (processRow emptyParse ⟨[], 0, 0⟩ c10Row).2 ("question_html") =
        none :=
  ⟨by decide,
    (processRow_output_frame emptyParse ⟨[], 0, 0⟩ c10Row (by decide)).1⟩
